import Mathlib

/-!
# Verification of the MP3 ancillary-LSB steganography core

A shallow embedding of the Go backend of the `audio-steganography`
repository (packages `crypto`, `mp3parser`, `stego`: files `vigenere.go`,
`parser.go`, `mp3_ancillary_lsb.go`), together with theorems settling the
specification's claims about it.

Modelling conventions:
* A Go `byte` is a `Nat`; wherever the Go code relies on 8-bit wrap-around
  the definitions take the remainder `% 256` exactly where the source casts.
* A Go `[]byte` is a `List Nat`.
* Fallible Go functions returning `(T, error)` become `Except String T`.
* `math/rand`: the stego engine reseeds its generator from the key at the
  start of every random-mode position generation
  (`mp3_ancillary_lsb.go:272-273`), so the stream of `rng.Intn(dataLen)`
  results consumed by one call is a fixed function of the key (and of
  `dataLen`, which is the same carrier length in every call of one
  embed/extract pair).  We model that post-reseed stream as an explicit
  parameter `rng : Nat → Nat` (the value of the `i`-th draw); Go's
  `Intn(dataLen)` contract `rng i < dataLen` appears as a hypothesis where
  it is needed.  The unbounded `for len(allPositions) < dataLen` loop is
  given explicit fuel (one unit per draw); Go runs the loop to completion,
  which corresponds to the hypothesis that the fuel sufficed.
-/

namespace AudioStego

set_option maxRecDepth 100000

/-! ## Configuration (`models.StegoConfig`) -/

/-- The per-operation configuration (`models.StegoConfig`).  `key` and
`secretFilename` are byte strings (Go `string`s, used byte-wise). -/
structure StegoConfig where
  key : List Nat
  useEncryption : Bool
  useRandomStart : Bool
  lsbBits : Nat
  secretFilename : List Nat
  deriving Repr, DecidableEq

/-! ## Extended Vigenère cipher (`crypto/vigenere.go`) -/

/-- The Go `for i, char := range bytes` loop applying a position-dependent
byte transformation, starting at index `i`. -/
def mapWithIndex (f : Nat → Nat → Nat) : Nat → List Nat → List Nat
  | _, [] => []
  | i, c :: rest => f i c :: mapWithIndex f (i + 1) rest

/-- `ExtendedVigenere.Encrypt`: `c[i] = (p[i] + key[i mod |key|]) mod 256`;
with an empty key the input is returned unchanged (`vigenere.go:19-21`). -/
def vigenereEncrypt (key : List Nat) (plaintext : List Nat) : List Nat :=
  if key.length = 0 then plaintext
  else mapWithIndex (fun i c => (c + key.getD (i % key.length) 0) % 256) 0 plaintext

/-- `ExtendedVigenere.Decrypt`: `p[i] = (c[i] − key[i mod |key|] + 256) mod 256`
(computed in `int` in Go; for key bytes `< 256` the Nat expression
`c + 256 − k` is the same value). -/
def vigenereDecrypt (key : List Nat) (ciphertext : List Nat) : List Nat :=
  if key.length = 0 then ciphertext
  else mapWithIndex (fun i c => (c + 256 - key.getD (i % key.length) 0) % 256) 0 ciphertext

/-! ## Bit codec (`stego`, bottom of the LSB files) -/

/-- `bytesToBits`: each byte expanded MSB-first, `(b>>7)&1, …, b&1`. -/
def bytesToBits (data : List Nat) : List Nat :=
  data.flatMap (fun b => (List.range 8).map (fun i => (b >>> (7 - i)) &&& 1))

/-- One step of `bitsToBytes`: fold eight bits MSB-first into a byte via
`b = (b << 1) | (bit & 1)`. -/
def byteOfBits (b0 b1 b2 b3 b4 b5 b6 b7 : Nat) : Nat :=
  ((((((((b0 &&& 1) <<< 1 ||| (b1 &&& 1)) <<< 1 ||| (b2 &&& 1)) <<< 1 |||
    (b3 &&& 1)) <<< 1 ||| (b4 &&& 1)) <<< 1 ||| (b5 &&& 1)) <<< 1 |||
    (b6 &&& 1)) <<< 1 ||| (b7 &&& 1))

/-- `bitsToBytes`: group the bit list by eight (MSB first), discarding any
trailing group of fewer than eight bits. -/
def bitsToBytes : List Nat → List Nat
  | b0 :: b1 :: b2 :: b3 :: b4 :: b5 :: b6 :: b7 :: rest =>
      byteOfBits b0 b1 b2 b3 b4 b5 b6 b7 :: bitsToBytes rest
  | _ => []

/-! ## Position generator (`mp3_ancillary_lsb.go:267-300`)

In random mode the Go code first reseeds the generator from the key and
then draws `rng.Intn(dataLen)` repeatedly, keeping unseen values, until a
full permutation of `[0, dataLen)` has been collected; it finally returns
the first `bytesNeeded` entries.  `rng i` is the `i`-th post-reseed draw;
`fuel` bounds the draw count (Go draws until done). -/

/-- The rejection-sampling loop: `for len(allPositions) < dataLen` keep the
draw if unseen.  `k` is the next draw index, `acc` the collected positions
in order. -/
def buildPerm (rng : Nat → Nat) (dataLen : Nat) : Nat → Nat → List Nat → List Nat
  | 0, _, acc => acc
  | fuel + 1, k, acc =>
      if acc.length < dataLen then
        if rng k ∈ acc then buildPerm rng dataLen fuel (k + 1) acc
        else buildPerm rng dataLen fuel (k + 1) (acc ++ [rng k])
      else acc

/-- `generatePositions`: random mode slices the first
`min(bytesNeeded, len(allPositions))` entries of the full permutation;
sequential mode returns `[0, min(bytesNeeded, dataLen))`. -/
def generatePositions (cfg : StegoConfig) (rng : Nat → Nat) (fuel : Nat)
    (dataLen bytesNeeded : Nat) : List Nat :=
  if cfg.useRandomStart then
    (buildPerm rng dataLen fuel 0 []).take
      (min bytesNeeded (buildPerm rng dataLen fuel 0 []).length)
  else
    List.range (min bytesNeeded dataLen)

/-! ## MP3 container model (`mp3parser/parser.go`, `mp3parser` structs) -/

/-- `ID3v2Header`: 2 version bytes, flags byte, decoded syncsafe size. -/
structure ID3v2Header where
  version0 : Nat
  version1 : Nat
  flags : Nat
  size : Nat
  deriving Repr, DecidableEq

/-- `MP3FrameHeader`: the decoded fields of a 4-byte frame header. -/
structure MP3FrameHeader where
  versionID : Nat
  layer : Nat
  protectionBit : Bool
  bitrate : Nat
  sampleRate : Nat
  hasPadding : Bool
  channelMode : Nat
  frameLength : Nat
  deriving Repr, DecidableEq

/-- `MP3Frame`: decoded header, the original 4 header bytes, and the
`frameLength − 4` data bytes. -/
structure MP3Frame where
  header : MP3FrameHeader
  headerBytes : List Nat
  data : List Nat
  deriving Repr, DecidableEq

/-- `MP3File`: optional ID3v2 block plus the frame list.  (`ID3v1` is never
populated by `ParseMP3File` nor written by `WriteMP3File`, so it is
omitted.) -/
structure MP3File where
  id3v2 : Option ID3v2Header
  id3v2Data : List Nat
  frames : List MP3Frame
  deriving Repr, DecidableEq

/-- Big-endian `uint32` of the first four bytes
(`binary.BigEndian.Uint32`). -/
def be32 (bs : List Nat) : Nat :=
  bs.getD 0 0 <<< 24 ||| bs.getD 1 0 <<< 16 ||| bs.getD 2 0 <<< 8 ||| bs.getD 3 0

/-- `syncSafeToInt`: four 7-bit big-endian groups. -/
def syncSafeToInt (b : List Nat) : Nat :=
  (b.getD 0 0 &&& 0x7F) <<< 21 ||| (b.getD 1 0 &&& 0x7F) <<< 14 |||
  (b.getD 2 0 &&& 0x7F) <<< 7 ||| (b.getD 3 0 &&& 0x7F)

/-- The syncsafe re-encoding performed by `WriteMP3File`
(`parser.go:184-188`). -/
def encodeSyncSafe (size : Nat) : List Nat :=
  [(size >>> 21) &&& 0x7F, (size >>> 14) &&& 0x7F, (size >>> 7) &&& 0x7F, size &&& 0x7F]

/-- `ReadID3v2` on a byte list: returns the optional header, the opaque ID3
data and the unconsumed remainder.  Reading fewer than 10 bytes, or fewer
than `size` data bytes, is an `io` error that aborts the whole parse
(`parser.go:19-46`, error propagation at `parser.go:142-145`). -/
def readID3v2 (bytes : List Nat) :
    Except String (Option ID3v2Header × List Nat × List Nat) :=
  if bytes.length < 10 then .error "failed to read ID3v2"
  else if bytes.take 3 ≠ [73, 68, 51] then .ok (none, [], bytes)
  else
    let size := syncSafeToInt ((bytes.drop 6).take 4)
    let after := bytes.drop 10
    if after.length < size then .error "failed to read ID3v2"
    else .ok (some ⟨bytes.getD 3 0, bytes.getD 4 0, bytes.getD 5 0, size⟩,
              after.take size, after.drop size)

/-- MPEG-1 Layer III bitrate table (kbit/s), `parser.go:70-73`. -/
def bitrateTable : List Nat :=
  [0, 32, 40, 48, 56, 64, 80, 96, 112, 128, 160, 192, 224, 256, 320, 0]

/-- Sample-rate table, `parser.go:74`. -/
def sampleRateTable : List Nat := [44100, 48000, 32000, 0]

/-- Decoding of a 4-byte frame header (`ReadFrameHeader`, `parser.go:54-94`):
`none` when the sync word is absent or the bitrate/sample-rate entry is
unsupported. -/
def decodeFrameHeader (hb : List Nat) : Option MP3FrameHeader :=
  let header := be32 hb
  if header &&& 0xFFE00000 ≠ 0xFFE00000 then none
  else
    let versionID := (header >>> 19) &&& 0x3
    let layer := (header >>> 17) &&& 0x3
    let prot := (header >>> 16) &&& 0x1 = 0
    let bitrateIdx := (header >>> 12) &&& 0xF
    let sampleRateIdx := (header >>> 10) &&& 0x3
    let padBit := (header >>> 9) &&& 0x1 = 1
    let channelMode := (header >>> 6) &&& 0x3
    let bitrate := bitrateTable.getD bitrateIdx 0 * 1000
    let sampleRate := sampleRateTable.getD sampleRateIdx 0
    if bitrate = 0 ∨ sampleRate = 0 then none
    else
      let frameLen := (144 * bitrate) / sampleRate + (if padBit then 1 else 0)
      some ⟨versionID, layer, prot, bitrate, sampleRate, padBit, channelMode, frameLen⟩

/-- Outcome of one `ReadFrameHeader` call as seen by the `ParseMP3File`
loop: `eof` breaks the loop, `skip` continues after the consumed bytes,
`ok` appends a frame. -/
inductive FrameResult where
  | eof : FrameResult
  | skip : List Nat → FrameResult
  | ok : MP3Frame → List Nat → FrameResult

/-- One `ReadFrameHeader` call (`parser.go:48-103`).
`io.ReadFull` semantics: an empty reader gives `io.EOF` (→ loop break); a
partial read gives `io.ErrUnexpectedEOF` (→ loop continue with everything
consumed). -/
def readFrameHeader (bytes : List Nat) : FrameResult :=
  if bytes.length = 0 then .eof
  else if bytes.length < 4 then .skip []
  else
    let hb := bytes.take 4
    let rest := bytes.drop 4
    match decodeFrameHeader hb with
    | none => .skip rest
    | some h =>
        let need := h.frameLength - 4
        if rest.length < need then
          if rest.length = 0 then .eof else .skip []
        else .ok ⟨h, hb, rest.take need⟩ (rest.drop need)

/-- The `ParseMP3File` frame loop (`parser.go:150-166`), with fuel: each
iteration consumes at least one byte, so `bytes.length + 1` fuel always
suffices. -/
def parseFrames : Nat → List Nat → List MP3Frame
  | 0, _ => []
  | fuel + 1, bytes =>
      match readFrameHeader bytes with
      | .eof => []
      | .skip rest => parseFrames fuel rest
      | .ok fr rest => fr :: parseFrames fuel rest

/-- `ParseMP3File` (`parser.go:136-169`). -/
def parseMP3File (data : List Nat) : Except String MP3File :=
  match readID3v2 data with
  | .error e => .error e
  | .ok (hdr, id3Data, rest) =>
      .ok ⟨hdr, id3Data, parseFrames (rest.length + 1) rest⟩

/-- The frame section of `WriteMP3File`: each frame's 4 header bytes then
its data (`parser.go:195-198`). -/
def writeFrames (frames : List MP3Frame) : List Nat :=
  (frames.map (fun fr => fr.headerBytes ++ fr.data)).flatten

/-- `WriteMP3File` (`parser.go:171-201`): ID3v2 block (re-encoded syncsafe
size) followed by each frame's 4 header bytes and data. -/
def writeMP3File (f : MP3File) : List Nat :=
  (match f.id3v2 with
   | none => []
   | some h => [73, 68, 51, h.version0, h.version1, h.flags] ++
       encodeSyncSafe h.size ++ f.id3v2Data) ++
  writeFrames f.frames

/-- Well-formedness of a frame as established by `ParseMP3File`: four
stored header bytes (true bytes) that decode to the stored header, and
data of length `frameLength − 4`. -/
def FrameWF (fr : MP3Frame) : Prop :=
  fr.headerBytes.length = 4 ∧ (∀ b ∈ fr.headerBytes, b < 256) ∧
  decodeFrameHeader fr.headerBytes = some fr.header ∧
  fr.data.length + 4 = fr.header.frameLength

/-- Well-formedness of the ID3 block as established by `ParseMP3File`: a
decoded (hence `< 2^28`) size matching the stored data, or no block and no
data. -/
def ID3WF (f : MP3File) : Prop :=
  match f.id3v2 with
  | none => f.id3v2Data = []
  | some h => h.size < 2 ^ 28 ∧ f.id3v2Data.length = h.size

/-! ## Frame region analyzer (`mp3parser`, frame-analysis file) -/

/-- `MP3FrameRegions`: the four regions of a frame's data. -/
structure MP3FrameRegions where
  sideInfo : List Nat
  mainData : List Nat
  ancillaryData : List Nat
  trailingPadding : List Nat
  deriving Repr, DecidableEq

/-- The zero value `&MP3FrameRegions{}` used for problematic frames. -/
def emptyRegions : MP3FrameRegions := ⟨[], [], [], []⟩

/-- `BitReader` state: the byte list and the current bit position. -/
structure BitReader where
  data : List Nat
  pos : Nat
  deriving Repr, DecidableEq

/-- The bit-consuming loop of `BitReader.ReadBits`: on running past the end
it returns `none` (Go returns `0, io.EOF`) with the position advanced by
the bits consumed so far. -/
def readBitsAux (data : List Nat) : Nat → Nat → Nat → Option Nat × Nat
  | 0, pos, val => (some val, pos)
  | n + 1, pos, val =>
      if pos / 8 < data.length then
        readBitsAux data n (pos + 1)
          ((val <<< 1) ||| ((data.getD (pos / 8) 0 >>> (7 - pos % 8)) &&& 1))
      else (none, pos)

/-- `BitReader.ReadBits` (`ReadBits`, frame-analysis file): invalid bit
counts and end-of-data both yield value `0`; callers ignore the error. -/
def readBits (br : BitReader) (n : Nat) : Nat × BitReader :=
  if n = 0 ∨ n > 32 then (0, br)
  else
    match readBitsAux br.data n br.pos 0 with
    | (some v, pos) => (v, ⟨br.data, pos⟩)
    | (none, pos) => (0, ⟨br.data, pos⟩)

/-- `GranuleChannelInfo`: the three side-info fields the analyzer reads. -/
structure GranuleChannelInfo where
  part23Length : Nat
  bigValues : Nat
  globalGain : Nat
  deriving Repr, DecidableEq

/-- Read the three fields of one granule/channel (12 + 9 + 8 bits). -/
def readGranChan (br : BitReader) : GranuleChannelInfo × BitReader :=
  let (p23, br1) := readBits br 12
  let (bv, br2) := readBits br1 9
  let (gg, br3) := readBits br2 8
  (⟨p23, bv, gg⟩, br3)

/-- The inner `for ch` loop of `ParseSideInfo`. -/
def readChannels (br : BitReader) : Nat → List GranuleChannelInfo × BitReader
  | 0 => ([], br)
  | ch + 1 =>
      let (info, br1) := readGranChan br
      let (rest, br2) := readChannels br1 ch
      (info :: rest, br2)

/-- The outer `for gr` loop of `ParseSideInfo`. -/
def readGranules (br : BitReader) (channels : Nat) :
    Nat → List (List GranuleChannelInfo) × BitReader
  | 0 => ([], br)
  | gr + 1 =>
      let (infos, br1) := readChannels br channels
      let (rest, br2) := readGranules br1 channels gr
      (infos :: rest, br2)

/-- `ParseSideInfo`: skip `main_data_begin` and the private bits, then read
`part2_3_length`/`big_values`/`global_gain` for each granule and channel
(MPEG-1: 2 granules, else 1; mono: 1 channel, else 2).  The Go function
never returns a non-nil error. -/
def parseSideInfo (frameHeader : MP3FrameHeader) (sideInfo : List Nat) :
    List (List GranuleChannelInfo) :=
  let br0 : BitReader := ⟨sideInfo, 0⟩
  let br1 := (readBits br0 (if frameHeader.versionID = 3 then 9 else 8)).2
  let privBits :=
    if frameHeader.versionID = 3 then
      (if frameHeader.channelMode = 3 then 5 else 3)
    else
      (if frameHeader.channelMode = 3 then 1 else 2)
  let br2 := (readBits br1 privBits).2
  let granules := if frameHeader.versionID = 3 then 2 else 1
  let channels := if frameHeader.channelMode = 3 then 1 else 2
  (readGranules br2 channels granules).1

/-- Side-info size for the frame (`AnalyzeFrameData`, 17/32 for MPEG-1
mono/other, 9/17 for MPEG-2). -/
def sideInfoSizeOf (h : MP3FrameHeader) : Nat :=
  if h.versionID = 3 then (if h.channelMode = 3 then 17 else 32)
  else (if h.channelMode = 3 then 9 else 17)

/-- Index of the first byte of the maximal trailing `0x00` run of `rest`
(`paddingStart` loop in `AnalyzeFrameData`). -/
def paddingStartOf (rest : List Nat) : Nat :=
  rest.length - (rest.reverse.takeWhile (fun b => b = 0)).length

/-- The clipped main-data byte count of `AnalyzeFrameData`: the summed
`part2_3_length` bits rounded up to bytes (`math.Ceil` on a `float64` in
Go; the sum of at most four 12-bit values is far below the range where
that differs from exact arithmetic), clipped to `len(remaining) − 20`
when that is non-negative and to `len(remaining)` otherwise
(`parser.go` analysis, `maxMainBytes` bound). -/
def mainBytesOf (frameHeader : MP3FrameHeader) (frameData : List Nat) : Nat :=
  let sideInfoSize := sideInfoSizeOf frameHeader
  let sideInfo := frameData.take sideInfoSize
  let remaining := frameData.drop sideInfoSize
  let granules := parseSideInfo frameHeader sideInfo
  let mainBits := (granules.map (fun gr =>
    (gr.map (fun ch => ch.part23Length)).sum)).sum
  let mainBytes0 := (mainBits + 7) / 8
  let maxMainBytes :=
    if remaining.length < 20 then remaining.length else remaining.length - 20
  if mainBytes0 > maxMainBytes then maxMainBytes else mainBytes0

/-- `AnalyzeFrameData`: split a frame's data into side-info, main-data
(clipped, see `mainBytesOf`), ancillary data and trailing zero padding. -/
def analyzeFrameData (frameHeader : MP3FrameHeader) (frameData : List Nat) :
    Except String MP3FrameRegions :=
  if frameData.length < 4 then .error "frame data too short"
  else
    let sideInfoSize := sideInfoSizeOf frameHeader
    if sideInfoSize ≥ frameData.length then
      .ok ⟨frameData, [], [], []⟩
    else
      let sideInfo := frameData.take sideInfoSize
      let remaining := frameData.drop sideInfoSize
      let mainBytes := mainBytesOf frameHeader frameData
      let rest := remaining.drop mainBytes
      let paddingStart := paddingStartOf rest
      .ok ⟨sideInfo, remaining.take mainBytes, rest.take paddingStart,
           rest.drop paddingStart⟩

/-- `GetSafeModificationBytes`: ancillary data followed by padding. -/
def getSafeModificationBytes (r : MP3FrameRegions) : List Nat :=
  r.ancillaryData ++ r.trailingPadding

/-- `ReconstructFrameData`: side-info, main-data, then the modified safe
bytes, zero-filled or truncated to the original ancillary+padding length. -/
def reconstructFrameData (r : MP3FrameRegions) (modifiedSafe : List Nat) : List Nat :=
  let ancPad := r.ancillaryData.length + r.trailingPadding.length
  r.sideInfo ++ r.mainData ++
    (if modifiedSafe.length ≤ ancPad then
      modifiedSafe ++ List.replicate (ancPad - modifiedSafe.length) 0
    else modifiedSafe.take ancPad)

/-! ## Stego core (`stego/mp3_ancillary_lsb.go`) -/

/-- Region analysis of every frame; a failing analysis contributes the zero
value `&MP3FrameRegions{}` (embed, `mp3_ancillary_lsb.go:109-113`).  Since
`getSafeModificationBytes emptyRegions = []`, the concatenated safe bytes
below also agree with `CalculateCapacity` and `ExtractFromMP3`, which
instead skip failing frames. -/
def frameRegionsList (frames : List MP3Frame) : List MP3FrameRegions :=
  frames.map (fun fr =>
    match analyzeFrameData fr.header fr.data with
    | .ok r => r
    | .error _ => emptyRegions)

/-- The concatenation of all frames' safe-modification bytes. -/
def collectSafeBytes (frames : List MP3Frame) : List Nat :=
  ((frameRegionsList frames).map getSafeModificationBytes).flatten

/-- `CalculateCapacity` (`mp3_ancillary_lsb.go:28-60`). -/
def calculateCapacity (cfg : StegoConfig) (mp3Data : List Nat) : Except String Nat :=
  match parseMP3File mp3Data with
  | .error _ => .error "failed to parse MP3"
  | .ok mp3File =>
      let totalSafeBytes := (mp3File.frames.map (fun fr =>
        match analyzeFrameData fr.header fr.data with
        | .ok r => (getSafeModificationBytes r).length
        | .error _ => 0)).sum
      if totalSafeBytes = 0 then .error "no safe ancillary data found in MP3 frames"
      else
        let capacity := totalSafeBytes * cfg.lsbBits / 8
        if capacity < 8 then .error "insufficient ancillary data for metadata"
        else .ok (capacity - 8)

/-- `binary.BigEndian.PutUint32` of `uint32(n)` as four bytes. -/
def u32be (n : Nat) : List Nat :=
  [(n >>> 24) &&& 0xFF, (n >>> 16) &&& 0xFF, (n >>> 8) &&& 0xFF, n &&& 0xFF]

/-- The payload envelope built by `EmbedInMP3`
(`mp3_ancillary_lsb.go:63-87`): `len(filename) ‖ filename ‖ len(data) ‖
data`, then optionally encrypted as a whole. -/
def mkPayload (cfg : StegoConfig) (secretData : List Nat) : List Nat :=
  let filename := cfg.secretFilename
  let envelope := u32be (filename.length % 4294967296) ++ filename ++
    u32be (secretData.length % 4294967296) ++ secretData
  if cfg.useEncryption then vigenereEncrypt cfg.key envelope else envelope

/-- `bytesNeeded`: `⌈payloadBits / lsbBits⌉` computed as in the source
(`mp3_ancillary_lsb.go:125-129`). -/
def bytesNeededFor (payloadBits lsbBits : Nat) : Nat :=
  payloadBits / lsbBits + (if payloadBits % lsbBits ≠ 0 then 1 else 0)

/-- The 8-bit LSB mask `byte((1 << lsbBits) − 1)`. -/
def lsbMask (lsb : Nat) : Nat := ((1 <<< lsb) - 1) % 256

/-- The inner bit-packing loop of the embed walk: collect up to `lsb` bits
of `bits` starting at `bitIndex`, bit `j` of the group becoming bit `j` of
the packed value. -/
def packBits (bits : List Nat) (bitIndex lsb : Nat) : Nat :=
  (List.range lsb).foldl (fun v j =>
    if bitIndex + j < bits.length then v ||| ((bits.getD (bitIndex + j) 0) <<< j)
    else v) 0

/-- The embed walk over the positions (`mp3_ancillary_lsb.go:144-158`):
replace the low `lsb` bits of each selected safe byte with the next group
of payload bits, stopping when the payload is exhausted. -/
def embedIntoSafe (lsb : Nat) (bits : List Nat) : List Nat → Nat → List Nat → List Nat
  | [], _, s => s
  | pos :: ps, bitIndex, s =>
      if bits.length ≤ bitIndex then s
      else
        embedIntoSafe lsb bits ps (bitIndex + min lsb (bits.length - bitIndex))
          (s.set pos ((s.getD pos 0 &&& (255 - lsbMask lsb)) |||
            (packBits bits bitIndex lsb &&& lsbMask lsb)))

/-- The scatter loop (`mp3_ancillary_lsb.go:160-174`): hand each frame with
a non-empty safe view its slice of the modified safe bytes and rebuild its
data. -/
def scatterFrames (allSafe : List Nat) :
    List MP3Frame → List MP3FrameRegions → Nat → List MP3Frame
  | [], _, _ => []
  | fr :: frs, [], _ => fr :: frs
  | fr :: frs, r :: rs, idx =>
      let n := (getSafeModificationBytes r).length
      if 0 < n then
        ⟨fr.header, fr.headerBytes, reconstructFrameData r ((allSafe.drop idx).take n)⟩ ::
          scatterFrames allSafe frs rs (idx + n)
      else fr :: scatterFrames allSafe frs rs idx

/-- `EmbedInMP3` (`mp3_ancillary_lsb.go:62-178`). -/
def embedInMP3 (cfg : StegoConfig) (rng : Nat → Nat) (fuel : Nat)
    (mp3Data secretData : List Nat) : Except String (List Nat) :=
  let payload := mkPayload cfg secretData
  match parseMP3File mp3Data with
  | .error _ => .error "failed to parse MP3"
  | .ok mp3File =>
      match calculateCapacity cfg mp3Data with
      | .error e => .error e
      | .ok capacity =>
          if payload.length > capacity then .error "secret data too large"
          else
            let frameRegions := frameRegionsList mp3File.frames
            let allSafeBytes := (frameRegions.map getSafeModificationBytes).flatten
            if allSafeBytes.length = 0 then
              .error "no safe ancillary data available for embedding"
            else
              let bytesNeeded := bytesNeededFor (payload.length * 8) cfg.lsbBits
              if bytesNeeded > allSafeBytes.length then .error "insufficient safe bytes"
              else
                let positions :=
                  generatePositions cfg rng fuel allSafeBytes.length bytesNeeded
                let modified :=
                  embedIntoSafe cfg.lsbBits (bytesToBits payload) positions 0 allSafeBytes
                .ok (writeMP3File ⟨mp3File.id3v2, mp3File.id3v2Data,
                     scatterFrames modified mp3File.frames frameRegions 0⟩)

/-- The bit-extraction walk (`mp3_ancillary_lsb.go:217-223`): for each
position, read the low `lsb` bits of the safe byte, low bit first. -/
def extractBitsFrom (lsb : Nat) (safe : List Nat) (positions : List Nat) : List Nat :=
  positions.flatMap (fun p =>
    (List.range lsb).map (fun j => ((safe.getD p 0 &&& lsbMask lsb) >>> j) &&& 1))

/-- The envelope-parsing tail of `ExtractFromMP3`
(`mp3_ancillary_lsb.go:228-264`), from the filename-length read on. -/
def envelopeChecks (extractedBytes : List Nat) : Except String (List Nat × List Nat) :=
  let filenameLen := be32 (extractedBytes.take 4)
  if filenameLen > 255 then .error "invalid filename length"
  else if extractedBytes.length < 8 + filenameLen then
    .error "insufficient extracted data for filename"
  else
    let filename := (extractedBytes.drop 4).take filenameLen
    let dataLen := be32 ((extractedBytes.drop (4 + filenameLen)).take 4)
    if dataLen > 10485760 then .error "invalid data length"
    else
      let dataStart := 4 + filenameLen + 4
      if extractedBytes.length < dataStart + dataLen then
        .error "insufficient extracted data"
      else .ok ((extractedBytes.drop dataStart).take dataLen, filename)

/-- `ExtractFromMP3` (`mp3_ancillary_lsb.go:180-265`): returns
`(secretData, filename)`. -/
def extractFromMP3 (cfg : StegoConfig) (rng : Nat → Nat) (fuel : Nat)
    (mp3Data : List Nat) : Except String (List Nat × List Nat) :=
  match parseMP3File mp3Data with
  | .error _ => .error "failed to parse MP3"
  | .ok mp3File =>
      let allSafeBytes := collectSafeBytes mp3File.frames
      if allSafeBytes.length = 0 then .error "no safe ancillary data found"
      else
        let positions :=
          generatePositions cfg rng fuel allSafeBytes.length allSafeBytes.length
        if positions.length = 0 then .error "no positions generated for extraction"
        else
          let extractedRaw := bitsToBytes (extractBitsFrom cfg.lsbBits allSafeBytes positions)
          if extractedRaw.length < 8 then
            .error "insufficient extracted data for basic metadata"
          else
            envelopeChecks
              (if cfg.useEncryption then vigenereDecrypt cfg.key extractedRaw
               else extractedRaw)

/-- The plaintext payload envelope
`len(filename) ‖ filename ‖ len(data) ‖ data` (`mp3_ancillary_lsb.go:67-80`). -/
def envelopeOf (cfg : StegoConfig) (secretData : List Nat) : List Nat :=
  u32be (cfg.secretFilename.length % 4294967296) ++ cfg.secretFilename ++
    u32be (secretData.length % 4294967296) ++ secretData

/-- The raw byte buffer assembled by `ExtractFromMP3` before optional
decryption, as a function of the parsed file. -/
def extractedRawOf (cfg : StegoConfig) (rng : Nat → Nat) (fuel : Nat)
    (f : MP3File) : List Nat :=
  bitsToBytes (extractBitsFrom cfg.lsbBits (collectSafeBytes f.frames)
    (generatePositions cfg rng fuel (collectSafeBytes f.frames).length
      (collectSafeBytes f.frames).length))

/-- The decrypted extracted buffer `ExtractFromMP3` parses the envelope
from. -/
def extractedBuf (cfg : StegoConfig) (rng : Nat → Nat) (fuel : Nat)
    (f : MP3File) : List Nat :=
  if cfg.useEncryption then vigenereDecrypt cfg.key (extractedRawOf cfg rng fuel f)
  else extractedRawOf cfg rng fuel f

/-- The filename length the spec's envelope-parse step reads:
`u32_be(buf[0..4))`. -/
def specFilenameLen (buf : List Nat) : Nat := be32 (buf.take 4)

/-- The data length the spec's envelope-parse step reads:
`u32_be(buf[4+n..8+n))`. -/
def specDataLen (buf : List Nat) : Nat :=
  be32 ((buf.drop (4 + specFilenameLen buf)).take 4)

/-- The spec's envelope-bound violations: `n > 255`, `m > 10 MiB`, or
`8 + n + m > len(buf)`. -/
def specEnvelopeViolation (buf : List Nat) : Prop :=
  255 < specFilenameLen buf ∨ 10485760 < specDataLen buf ∨
    buf.length < 8 + specFilenameLen buf + specDataLen buf

/-- The spec's envelope slices: data `buf[8+n..8+n+m)` and filename
`buf[4..4+n)`. -/
def specEnvelopeSlices (buf : List Nat) : List Nat × List Nat :=
  ((buf.drop (8 + specFilenameLen buf)).take (specDataLen buf),
   (buf.drop 4).take (specFilenameLen buf))

/-- The length of a frame's safe view, zero for frames whose analysis
fails. -/
def safeLenOf (fr : MP3Frame) : Nat :=
  match analyzeFrameData fr.header fr.data with
  | .ok r => (getSafeModificationBytes r).length
  | .error _ => 0

/-- Pointwise relation between an input frame and its scattered output:
header bytes and decoded header are untouched, the data keeps its length,
and the bytes before the safe view (side info and main data) are
untouched. -/
def ScatteredFrame (fr fr2 : MP3Frame) : Prop :=
  fr2.headerBytes = fr.headerBytes ∧ fr2.header = fr.header ∧
  fr2.data.length = fr.data.length ∧
  fr2.data.take (fr.data.length - safeLenOf fr) =
    fr.data.take (fr.data.length - safeLenOf fr)

/-! ## Concrete test vectors -/

/-- A 4-byte MPEG-1 Layer III mono frame header: sync `0xFFE`, 32 kbit/s
(bitrate index 1), 48 kHz (sample-rate index 1), no padding bit; decoded
frame length `144·32000/48000 = 96`. -/
def frameHdrBytes : List Nat := [255, 251, 20, 192]

/-- Frame data with all-zero side info (17 bytes, so `part2_3_length = 0`)
and 75 bytes of `0xAA`: the whole post-side-info region is safe. -/
def frameDataZ : List Nat := List.replicate 17 0 ++ List.replicate 75 170

/-- A two-frame MP3 carrier: 192 bytes, 150 safe bytes. -/
def mp3TwoFrames : List Nat :=
  (frameHdrBytes ++ frameDataZ) ++ (frameHdrBytes ++ frameDataZ)

/-- All-`0xFF` frame data: the side info nominally claims 8190 bits of
main data, so main data is clipped and only the 20 reserved bytes are
safe. -/
def frameDataF : List Nat := List.replicate 92 255

/-- A single-frame MP3 whose safe view is exactly 20 bytes. -/
def mp3SmallSafe : List Nat := frameHdrBytes ++ frameDataF

/-- `mp3TwoFrames` followed by four junk bytes that belong to no frame:
the parser consumes them while resynchronising and the writer drops
them. -/
def mp3WithJunk : List Nat := mp3TwoFrames ++ [0, 0, 0, 0]

/-- An eight-frame carrier (600 safe bytes). -/
def mp3EightFrames : List Nat :=
  (List.range 8).flatMap (fun _ => frameHdrBytes ++ frameDataZ)

def cfgSeqLsb1 : StegoConfig := ⟨[107], false, false, 1, []⟩

def cfgSeqLsb2 : StegoConfig := ⟨[107, 101, 121], false, false, 2, [97]⟩

def cfgSeqLsb4 : StegoConfig := ⟨[107], false, false, 4, []⟩

/-- A configuration whose secret filename is 256 bytes long. -/
def cfgLongName : StegoConfig := ⟨[107], false, false, 4, List.replicate 256 97⟩

/-- A degenerate draw stream for sequential-mode calls (never consulted). -/
def rngZero : Nat → Nat := fun _ => 0

/-- The decoded form of `frameHdrBytes`. -/
def hdrZ : MP3FrameHeader := ⟨3, 1, false, 32000, 48000, false, 3, 96⟩

/-- The region split of `frameDataZ`. -/
def rZ : MP3FrameRegions :=
  ⟨List.replicate 17 0, [], List.replicate 75 170, []⟩

/-- The parse of `mp3TwoFrames`. -/
def fileTwoFrames : MP3File :=
  ⟨none, [], [⟨hdrZ, frameHdrBytes, frameDataZ⟩, ⟨hdrZ, frameHdrBytes, frameDataZ⟩]⟩

/-! # Theorems -/

/-! ### Cipher lemmas -/

/-- The parse of `mp3EightFrames`. -/
def fileEightFrames : MP3File :=
  ⟨none, [], List.replicate 8 ⟨hdrZ, frameHdrBytes, frameDataZ⟩⟩

/-- The stego output of a concrete successful embed call on the two-frame
carrier. -/
def embedTwoFramesOut : List Nat :=
  (embedInMP3 cfgSeqLsb2 rngZero 0 mp3TwoFrames [1, 2, 3]).toOption.getD []

/-- The stego output of a concrete successful embed call whose configured
filename is 256 bytes long. -/
def embedLongOut : List Nat :=
  (embedInMP3 cfgLongName rngZero 0 mp3EightFrames []).toOption.getD []

theorem mapWithIndex_length (f : Nat → Nat → Nat) (i : Nat) (xs : List Nat) :
    (mapWithIndex f i xs).length = xs.length := by
  induction xs generalizing i with
  | nil => rfl
  | cons c rest ih => simp [mapWithIndex, ih]

theorem mapWithIndex_take (f : Nat → Nat → Nat) (i n : Nat) (xs : List Nat) :
    (mapWithIndex f i xs).take n = mapWithIndex f i (xs.take n) := by
  induction xs generalizing i n with
  | nil => simp [mapWithIndex]
  | cons c rest ih =>
      cases n with
      | zero => simp [mapWithIndex]
      | succ m => simp [mapWithIndex, ih]

theorem mapWithIndex_mapWithIndex (f g : Nat → Nat → Nat) (i : Nat) (xs : List Nat)
    (h : ∀ j c, c ∈ xs → g j (f j c) = c) :
    mapWithIndex g i (mapWithIndex f i xs) = xs := by
  induction xs generalizing i with
  | nil => rfl
  | cons c rest ih =>
      simp only [mapWithIndex, List.cons.injEq]
      exact ⟨h i c (by simp), ih (i + 1) (fun j c hc => h j c (by simp [hc]))⟩

theorem vigenereEncrypt_length (key pt : List Nat) :
    (vigenereEncrypt key pt).length = pt.length := by
  unfold vigenereEncrypt
  split
  · rfl
  · exact mapWithIndex_length _ _ _

theorem vigenereDecrypt_length (key ct : List Nat) :
    (vigenereDecrypt key ct).length = ct.length := by
  unfold vigenereDecrypt
  split
  · rfl
  · exact mapWithIndex_length _ _ _

theorem vigenereDecrypt_vigenereEncrypt (key pt : List Nat)
    (hpt : ∀ b ∈ pt, b < 256) (hkey : ∀ b ∈ key, b < 256) :
    vigenereDecrypt key (vigenereEncrypt key pt) = pt := by
  unfold vigenereEncrypt vigenereDecrypt
  by_cases hk : key.length = 0
  · simp [hk]
  · simp only [hk, if_false]
    apply mapWithIndex_mapWithIndex
    intro j c hc
    have hkpos : 0 < key.length := Nat.pos_of_ne_zero hk
    have hmod : j % key.length < key.length := Nat.mod_lt _ hkpos
    have hkey' : key.getD (j % key.length) 0 < 256 := by
      rw [List.getD_eq_getElem _ _ hmod]
      exact hkey _ (List.getElem_mem hmod)
    have hc' : c < 256 := hpt _ hc
    omega

/-- Decrypting commutes with taking an output prefix: the cipher is applied
byte-position-wise. -/
theorem vigenereDecrypt_take (key : List Nat) (n : Nat) (ct : List Nat) :
    (vigenereDecrypt key ct).take n = vigenereDecrypt key (ct.take n) := by
  unfold vigenereDecrypt
  split
  · rfl
  · exact mapWithIndex_take _ _ _ _

theorem mapWithIndex_forall (f : Nat → Nat → Nat) (P : Nat → Prop)
    (h : ∀ j c, P (f j c)) :
    ∀ (i : Nat) (xs : List Nat), ∀ b ∈ mapWithIndex f i xs, P b := by
  intro i xs
  induction xs generalizing i with
  | nil => simp [mapWithIndex]
  | cons c rest ih =>
      intro b hb
      simp only [mapWithIndex, List.mem_cons] at hb
      rcases hb with hb | hb
      · exact hb ▸ h i c
      · exact ih (i + 1) b hb

theorem vigenereEncrypt_lt_256 (key pt : List Nat) (hpt : ∀ b ∈ pt, b < 256) :
    ∀ b ∈ vigenereEncrypt key pt, b < 256 := by
  unfold vigenereEncrypt
  split
  · exact hpt
  · apply mapWithIndex_forall
    intro j c
    exact Nat.mod_lt _ (by norm_num)

/-! ### Bit codec lemmas -/

theorem bytesToBits_nil : bytesToBits [] = [] := rfl

theorem bytesToBits_cons (b : Nat) (rest : List Nat) :
    bytesToBits (b :: rest) =
      (b >>> 7 &&& 1) :: (b >>> 6 &&& 1) :: (b >>> 5 &&& 1) :: (b >>> 4 &&& 1) ::
      (b >>> 3 &&& 1) :: (b >>> 2 &&& 1) :: (b >>> 1 &&& 1) :: (b >>> 0 &&& 1) ::
      bytesToBits rest := by
  rfl

theorem bytesToBits_length (xs : List Nat) :
    (bytesToBits xs).length = 8 * xs.length := by
  induction xs with
  | nil => rfl
  | cons b rest ih => rw [bytesToBits_cons]; simp [ih]; ring

theorem bytesToBits_append (xs ys : List Nat) :
    bytesToBits (xs ++ ys) = bytesToBits xs ++ bytesToBits ys := by
  simp [bytesToBits]

/-- The defining equation of `bitsToBytes` on a group of eight bits. -/
theorem bitsToBytes_cons8 (b0 b1 b2 b3 b4 b5 b6 b7 : Nat) (rest : List Nat) :
    bitsToBytes (b0 :: b1 :: b2 :: b3 :: b4 :: b5 :: b6 :: b7 :: rest) =
      byteOfBits b0 b1 b2 b3 b4 b5 b6 b7 :: bitsToBytes rest := rfl

set_option maxRecDepth 8192 in
/-- Recombining the eight MSB-first bits of a byte value below 256 gives the
byte back. -/
theorem byteOfBits_shifts (b : Nat) (hb : b < 256) :
    byteOfBits (b >>> 7 &&& 1) (b >>> 6 &&& 1) (b >>> 5 &&& 1) (b >>> 4 &&& 1)
      (b >>> 3 &&& 1) (b >>> 2 &&& 1) (b >>> 1 &&& 1) (b >>> 0 &&& 1) = b := by
  revert hb
  revert b
  decide

/-- Every emitted bit is `0` or `1`, hence below `2`. -/
theorem bytesToBits_lt_two (xs : List Nat) : ∀ b ∈ bytesToBits xs, b < 2 := by
  intro b hb
  simp only [bytesToBits, List.mem_flatMap, List.mem_map, List.mem_range] at hb
  obtain ⟨c, hc, i, hi, hb⟩ := hb
  have h1 : c >>> (7 - i) &&& 1 ≤ 1 := Nat.and_le_right
  omega

/-- `bitsToBytes` inverts `bytesToBits` on a byte-aligned prefix: the
trailing bits `ys` only contribute their own groups. -/
theorem bitsToBytes_bytesToBits_append (xs ys : List Nat)
    (hxs : ∀ b ∈ xs, b < 256) :
    bitsToBytes (bytesToBits xs ++ ys) = xs ++ bitsToBytes ys := by
  induction xs with
  | nil => rfl
  | cons b rest ih =>
      rw [bytesToBits_cons]
      simp only [List.cons_append]
      rw [bitsToBytes_cons8]
      rw [byteOfBits_shifts b (hxs b (by simp))]
      rw [ih (fun x hx => hxs x (by simp [hx]))]

theorem bitsToBytes_length (bits : List Nat) :
    (bitsToBytes bits).length = bits.length / 8 := by
  induction bits using bitsToBytes.induct with
  | case1 b0 b1 b2 b3 b4 b5 b6 b7 rest ih =>
      rw [bitsToBytes_cons8]
      simp only [List.length_cons, ih]
      omega
  | case2 bits h =>
      rcases bits with _ | ⟨a, _ | ⟨b, _ | ⟨c, _ | ⟨d, _ | ⟨e, _ | ⟨f, _ | ⟨g, _ | ⟨h8, t⟩⟩⟩⟩⟩⟩⟩⟩
      · rfl
      · simp [bitsToBytes]
      · simp [bitsToBytes]
      · simp [bitsToBytes]
      · simp [bitsToBytes]
      · simp [bitsToBytes]
      · simp [bitsToBytes]
      · simp [bitsToBytes]
      · exact (h a b c d e f g h8 t rfl).elim

/-! ## Claim C8: cipher round-trip -/

/-- **C8.** For every byte sequence `b` (all 256 byte values permitted) and
every key `k` of 1 to 256 bytes, `Decrypt(Encrypt(b, k), k) = b`, and both
`Encrypt` and `Decrypt` are length-preserving. -/
theorem cipher_round_trip (b k : List Nat)
    (hb : ∀ x ∈ b, x < 256) (hk : ∀ x ∈ k, x < 256)
    (_hk1 : 1 ≤ k.length) (_hk256 : k.length ≤ 256) :
    vigenereDecrypt k (vigenereEncrypt k b) = b ∧
    (vigenereEncrypt k b).length = b.length ∧
    (vigenereDecrypt k b).length = b.length :=
  ⟨vigenereDecrypt_vigenereEncrypt k b hb hk,
   vigenereEncrypt_length k b, vigenereDecrypt_length k b⟩

/-- Witness for C8 at a concrete plaintext and key. -/
theorem cipher_round_trip_witness :
    vigenereDecrypt [1, 250] (vigenereEncrypt [1, 250] [0, 255, 7, 128]) = [0, 255, 7, 128] ∧
    (vigenereEncrypt [1, 250] [0, 255, 7, 128]).length = 4 ∧
    (vigenereDecrypt [1, 250] [0, 255, 7, 128]).length = 4 :=
  cipher_round_trip [0, 255, 7, 128] [1, 250]
    (by decide) (by decide) (by decide) (by decide)

/-! ## Claim C9: bit codec round-trip -/

/-- **C9.** For every byte sequence `b`, `bitsToBytes (bytesToBits b) = b`:
`bytesToBits` emits each byte MSB-first and `bitsToBytes` regroups by eight,
discarding a trailing partial group. -/
theorem bit_codec_round_trip (b : List Nat) (hb : ∀ x ∈ b, x < 256) :
    bitsToBytes (bytesToBits b) = b := by
  have h := bitsToBytes_bytesToBits_append b [] hb
  have h2 : bitsToBytes ([] : List Nat) = [] := rfl
  simpa [h2] using h

/-- Witness for C9 at a concrete byte sequence. -/
theorem bit_codec_round_trip_witness :
    bitsToBytes (bytesToBits [0, 1, 127, 128, 255, 170]) = [0, 1, 127, 128, 255, 170] :=
  bit_codec_round_trip [0, 1, 127, 128, 255, 170] (by decide)

theorem buildPerm_length_le (rng : Nat → Nat) (dataLen : Nat) :
    ∀ (fuel k : Nat) (acc : List Nat), acc.length ≤ dataLen →
      (buildPerm rng dataLen fuel k acc).length ≤ dataLen := by
  intro fuel
  induction fuel with
  | zero => intro k acc h; exact h
  | succ n ih =>
      intro k acc h
      unfold buildPerm
      split
      · split
        · exact ih (k + 1) acc h
        · exact ih (k + 1) _ (by simp; omega)
      · exact h

theorem buildPerm_nodup (rng : Nat → Nat) (dataLen : Nat) :
    ∀ (fuel k : Nat) (acc : List Nat), acc.Nodup →
      (buildPerm rng dataLen fuel k acc).Nodup := by
  intro fuel
  induction fuel with
  | zero => intro k acc h; exact h
  | succ n ih =>
      intro k acc h
      unfold buildPerm
      split
      · split
        · exact ih (k + 1) acc h
        · refine ih (k + 1) _ ?_
          rename_i hnotmem
          simpa [List.nodup_append] using ⟨h, hnotmem⟩
      · exact h

theorem buildPerm_lt (rng : Nat → Nat) (dataLen : Nat) (hrng : ∀ i, rng i < dataLen) :
    ∀ (fuel k : Nat) (acc : List Nat), (∀ x ∈ acc, x < dataLen) →
      ∀ x ∈ buildPerm rng dataLen fuel k acc, x < dataLen := by
  intro fuel
  induction fuel with
  | zero => intro k acc h; exact h
  | succ n ih =>
      intro k acc h
      unfold buildPerm
      split
      · split
        · exact ih (k + 1) acc h
        · refine ih (k + 1) _ ?_
          intro x hx
          rcases List.mem_append.mp hx with hx | hx
          · exact h x hx
          · simp only [List.mem_singleton] at hx
            exact hx ▸ hrng k
      · exact h

/-- A duplicate-free list of `L` naturals all below `L` is a permutation of
`[0, L)`. -/
theorem perm_range_of_nodup (xs : List Nat) (L : Nat) (hlen : xs.length = L)
    (hnd : xs.Nodup) (hlt : ∀ x ∈ xs, x < L) : xs.Perm (List.range L) := by
  apply List.perm_of_nodup_nodup_toFinset_eq hnd (List.nodup_range L)
  apply Finset.eq_of_subset_of_card_le
  · intro x hx
    simp only [List.mem_toFinset] at hx
    simp only [List.mem_toFinset, List.mem_range]
    exact hlt x hx
  · rw [List.toFinset_card_of_nodup (List.nodup_range L),
        List.toFinset_card_of_nodup hnd]
    simp [hlen]

/-! ## Claim C4: position generator determinism, prefix stability,
permutation -/

/-- **C4.** For a fixed configuration and carrier length `L ≥ 1`:
`generatePositions (L, n1)` is the first `min n1 L` entries of
`generatePositions (L, n2)` whenever `n1 ≤ n2`; the result depends only on
the post-reseed draw stream (the reseed at the head of `generatePositions`
makes prior calls on the instance irrelevant, so two calls with identical
arguments agree); and in random mode a completed permutation for `n = L`
is a permutation of `[0, L)`. -/
theorem generatePositions_prefix_stable (cfg : StegoConfig) (rng rng2 : Nat → Nat)
    (fuel L n1 n2 : Nat) (_hL : 1 ≤ L) (h12 : n1 ≤ n2) (hrng : ∀ i, rng i < L) :
    generatePositions cfg rng fuel L n1 =
      (generatePositions cfg rng fuel L n2).take (min n1 L) ∧
    ((∀ i, rng2 i = rng i) →
      generatePositions cfg rng2 fuel L n1 = generatePositions cfg rng fuel L n1) ∧
    (cfg.useRandomStart = true → (buildPerm rng L fuel 0 []).length = L →
      (generatePositions cfg rng fuel L L).Perm (List.range L)) := by
  refine ⟨?_, ?_, ?_⟩
  · unfold generatePositions
    split
    · rw [List.take_take]
      have hle : (buildPerm rng L fuel 0 []).length ≤ L :=
        buildPerm_length_le rng L fuel 0 [] (by simp)
      congr 1
      omega
    · rw [List.take_range]
      congr 1
      omega
  · intro heq
    have : rng2 = rng := funext heq
    rw [this]
  · intro hrand hcomplete
    unfold generatePositions
    rw [if_pos hrand, hcomplete, min_self,
        List.take_of_length_le (le_of_eq hcomplete)]
    exact perm_range_of_nodup _ L hcomplete
      (buildPerm_nodup rng L fuel 0 [] (by simp))
      (buildPerm_lt rng L hrng fuel 0 [] (by simp))

/-- Witness for C4: a concrete random-mode configuration with carrier
length 3 and a draw stream that completes the permutation. -/
theorem generatePositions_prefix_stable_witness :
    generatePositions ⟨[107], false, true, 1, []⟩ (fun i => (2 * i) % 3) 3 3 1 =
      (generatePositions ⟨[107], false, true, 1, []⟩ (fun i => (2 * i) % 3) 3 3 2).take
        (min 1 3) ∧
    (generatePositions ⟨[107], false, true, 1, []⟩ (fun i => (2 * i) % 3) 3 3 3).Perm
      (List.range 3) := by
  have h := generatePositions_prefix_stable ⟨[107], false, true, 1, []⟩
    (fun i => (2 * i) % 3) (fun i => (2 * i) % 3) 3 3 1 2
    (by norm_num) (by norm_num) (fun i => Nat.mod_lt _ (by norm_num))
  exact ⟨h.1, h.2.2 rfl (by decide)⟩

/-! ## Bit-arithmetic infrastructure -/

theorem lor_shift_eq_add (a b : Nat) {k : Nat} (hb : b < 2 ^ k) :
    (a <<< k) ||| b = a * 2 ^ k + b := by
  rw [Nat.shiftLeft_eq, mul_comm, ← Nat.mul_add_lt_is_or hb a, mul_comm]

theorem and_255_eq_mod (x : Nat) : x &&& 255 = x % 256 := by
  have h := Nat.and_pow_two_sub_one_eq_mod x 8
  norm_num at h
  exact h

theorem and_127_eq_mod (x : Nat) : x &&& 127 = x % 128 := by
  have h := Nat.and_pow_two_sub_one_eq_mod x 7
  norm_num at h
  exact h

theorem u32be_length (n : Nat) : (u32be n).length = 4 := rfl

theorem u32be_lt_256 (n : Nat) : ∀ b ∈ u32be n, b < 256 := by
  intro b hb
  simp only [u32be, List.mem_cons, List.not_mem_nil, or_false] at hb
  rcases hb with h | h | h | h <;>
    (subst h; rw [and_255_eq_mod]; exact Nat.mod_lt _ (by norm_num))

/-- `binary.BigEndian.Uint32` inverts `PutUint32` below `2^32`. -/
theorem be32_u32be (n : Nat) (hn : n < 2 ^ 32) : be32 (u32be n) = n := by
  unfold be32 u32be
  simp only [List.getD_cons_zero, List.getD_cons_succ]
  simp only [and_255_eq_mod, Nat.shiftRight_eq_div_pow]
  rw [Nat.lor_assoc, Nat.lor_assoc]
  rw [lor_shift_eq_add (k := 8) (n / 2 ^ 8 % 256) (n % 256) (by omega)]
  rw [lor_shift_eq_add (k := 16) (n / 2 ^ 16 % 256)
    (n / 2 ^ 8 % 256 * 2 ^ 8 + n % 256) (by omega)]
  rw [lor_shift_eq_add (k := 24) (n / 2 ^ 24 % 256)
    (n / 2 ^ 16 % 256 * 2 ^ 16 + (n / 2 ^ 8 % 256 * 2 ^ 8 + n % 256)) (by omega)]
  omega

/-- `syncSafeToInt` inverts the writer's syncsafe encoding below `2^28`. -/
theorem syncSafeToInt_encodeSyncSafe (s : Nat) (hs : s < 2 ^ 28) :
    syncSafeToInt (encodeSyncSafe s) = s := by
  unfold syncSafeToInt encodeSyncSafe
  simp only [List.getD_cons_zero, List.getD_cons_succ]
  simp only [and_127_eq_mod, Nat.shiftRight_eq_div_pow]
  rw [Nat.lor_assoc, Nat.lor_assoc]
  rw [lor_shift_eq_add (k := 7) (s / 2 ^ 7 % 128 % 128) (s % 128 % 128) (by omega)]
  rw [lor_shift_eq_add (k := 14) (s / 2 ^ 14 % 128 % 128)
    (s / 2 ^ 7 % 128 % 128 * 2 ^ 7 + s % 128 % 128) (by omega)]
  rw [lor_shift_eq_add (k := 21) (s / 2 ^ 21 % 128 % 128)
    (s / 2 ^ 14 % 128 % 128 * 2 ^ 14 + (s / 2 ^ 7 % 128 % 128 * 2 ^ 7 + s % 128 % 128))
    (by omega)]
  omega

/-- The decoded syncsafe size is always below `2^28`. -/
theorem syncSafeToInt_lt (b : List Nat) : syncSafeToInt b < 2 ^ 28 := by
  unfold syncSafeToInt
  simp only [and_127_eq_mod]
  rw [Nat.lor_assoc, Nat.lor_assoc]
  rw [lor_shift_eq_add (k := 7) (b.getD 2 0 % 128) (b.getD 3 0 % 128) (by omega)]
  rw [lor_shift_eq_add (k := 14) (b.getD 1 0 % 128)
    (b.getD 2 0 % 128 * 2 ^ 7 + b.getD 3 0 % 128) (by omega)]
  rw [lor_shift_eq_add (k := 21) (b.getD 0 0 % 128)
    (b.getD 1 0 % 128 * 2 ^ 14 + (b.getD 2 0 % 128 * 2 ^ 7 + b.getD 3 0 % 128))
    (by omega)]
  omega

/-- For a 4-byte list of true bytes, `be32` is the base-256 value. -/
theorem be32_eq_of_bytes (b0 b1 b2 b3 : Nat) (_h0 : b0 < 256) (h1 : b1 < 256)
    (h2 : b2 < 256) (h3 : b3 < 256) :
    be32 [b0, b1, b2, b3] = b0 * 2 ^ 24 + b1 * 2 ^ 16 + b2 * 2 ^ 8 + b3 := by
  unfold be32
  simp only [List.getD_cons_zero, List.getD_cons_succ]
  rw [Nat.lor_assoc, Nat.lor_assoc]
  rw [lor_shift_eq_add (k := 8) b2 b3 (by omega)]
  rw [lor_shift_eq_add (k := 16) b1 (b2 * 2 ^ 8 + b3) (by omega)]
  rw [lor_shift_eq_add (k := 24) b0 (b1 * 2 ^ 16 + (b2 * 2 ^ 8 + b3)) (by omega)]
  omega

/-! ## Frame header decode facts -/

theorem bitrateTable_bounds :
    ∀ i < 16, bitrateTable.getD i 0 = 0 ∨
      (32 ≤ bitrateTable.getD i 0 ∧ bitrateTable.getD i 0 ≤ 320) := by
  decide

theorem sampleRateTable_bounds :
    ∀ i < 4, sampleRateTable.getD i 0 = 0 ∨
      (32000 ≤ sampleRateTable.getD i 0 ∧ sampleRateTable.getD i 0 ≤ 48000) := by
  decide

theorem decodeFrameHeader_facts (hb : List Nat) (h : MP3FrameHeader)
    (hd : decodeFrameHeader hb = some h) :
    96 ≤ h.frameLength ∧ 32000 ≤ h.bitrate ∧ 0 < h.sampleRate ∧
      h.sampleRate ≤ 48000 ∧ be32 hb &&& 0xFFE00000 = 0xFFE00000 := by
  unfold decodeFrameHeader at hd
  by_cases hsync : be32 hb &&& 0xFFE00000 ≠ 0xFFE00000
  · rw [if_pos hsync] at hd
    exact absurd hd (by simp)
  · rw [if_neg hsync] at hd
    simp only [not_not] at hsync
    by_cases hzero : bitrateTable.getD ((be32 hb >>> 12) &&& 0xF) 0 * 1000 = 0 ∨
        sampleRateTable.getD ((be32 hb >>> 10) &&& 0x3) 0 = 0
    · rw [if_pos hzero] at hd
      exact absurd hd (by simp)
    · rw [if_neg hzero] at hd
      push_neg at hzero
      have hidx1 : (be32 hb >>> 12) &&& 0xF < 16 := by
        have := Nat.and_le_right (n := be32 hb >>> 12) (m := 0xF)
        omega
      have hidx2 : (be32 hb >>> 10) &&& 0x3 < 4 := by
        have := Nat.and_le_right (n := be32 hb >>> 10) (m := 0x3)
        omega
      have hb1 := bitrateTable_bounds _ hidx1
      have hb2 := sampleRateTable_bounds _ hidx2
      have hstruct := (Option.some.injEq _ _).mp hd
      subst hstruct
      simp only
      refine ⟨?_, by omega, by omega, by omega, hsync⟩
      have hrate : 32000 ≤ bitrateTable.getD ((be32 hb >>> 12) &&& 0xF) 0 * 1000 := by
        omega
      have hsr : 0 < sampleRateTable.getD ((be32 hb >>> 10) &&& 0x3) 0 := by omega
      have h96 : 96 ≤ 144 * (bitrateTable.getD ((be32 hb >>> 12) &&& 0xF) 0 * 1000) /
          sampleRateTable.getD ((be32 hb >>> 10) &&& 0x3) 0 := by
        rw [Nat.le_div_iff_mul_le hsr]
        omega
      split <;> omega

theorem list_len4 (l : List Nat) (h : l.length = 4) :
    ∃ a b c d, l = [a, b, c, d] := by
  rcases l with _ | ⟨a, _ | ⟨b, _ | ⟨c, _ | ⟨d, _ | ⟨e, t⟩⟩⟩⟩⟩ <;> simp_all

/-- For a well-formed frame, the first stored header byte is `0xFF` — in
particular it is not `'I'`, so a frame section never looks like an ID3v2
block. -/
theorem FrameWF_first_byte (fr : MP3Frame) (h : FrameWF fr) :
    fr.headerBytes.getD 0 0 = 255 := by
  obtain ⟨hlen, hbytes, hdec, _⟩ := h
  have hsync : be32 fr.headerBytes &&& 0xFFE00000 = 0xFFE00000 :=
    (decodeFrameHeader_facts _ _ hdec).2.2.2.2
  obtain ⟨b0, b1, b2, b3, heq⟩ := list_len4 _ hlen
  rw [heq] at hsync hbytes ⊢
  have hb0 : b0 < 256 := hbytes b0 (by simp)
  have hb1 : b1 < 256 := hbytes b1 (by simp)
  have hb2 : b2 < 256 := hbytes b2 (by simp)
  have hb3 : b3 < 256 := hbytes b3 (by simp)
  have hv := be32_eq_of_bytes b0 b1 b2 b3 hb0 hb1 hb2 hb3
  have hle : (0xFFE00000 : Nat) ≤ be32 [b0, b1, b2, b3] := by
    calc (0xFFE00000 : Nat) = be32 [b0, b1, b2, b3] &&& 0xFFE00000 := hsync.symm
    _ ≤ be32 [b0, b1, b2, b3] := Nat.and_le_left
  rw [hv] at hle
  simp only [List.getD_cons_zero]
  omega

/-! ## Parser characterization -/

theorem readFrameHeader_ok_elim (bytes : List Nat) (fr : MP3Frame) (rest : List Nat)
    (h : readFrameHeader bytes = .ok fr rest) :
    4 ≤ bytes.length ∧
    fr.headerBytes = bytes.take 4 ∧
    decodeFrameHeader (bytes.take 4) = some fr.header ∧
    fr.data = (bytes.drop 4).take (fr.header.frameLength - 4) ∧
    fr.header.frameLength - 4 ≤ (bytes.drop 4).length ∧
    rest = (bytes.drop 4).drop (fr.header.frameLength - 4) := by
  simp only [readFrameHeader] at h
  by_cases h1 : bytes.length = 0
  · rw [if_pos h1] at h; simp at h
  · rw [if_neg h1] at h
    by_cases h2 : bytes.length < 4
    · rw [if_pos h2] at h; simp at h
    · rw [if_neg h2] at h
      cases hdec : decodeFrameHeader (bytes.take 4) with
      | none => rw [hdec] at h; simp at h
      | some hh =>
          rw [hdec] at h
          simp only at h
          by_cases h3 : (bytes.drop 4).length < hh.frameLength - 4
          · rw [if_pos h3] at h
            split_ifs at h <;> simp at h
          · rw [if_neg h3] at h
            simp only [FrameResult.ok.injEq] at h
            obtain ⟨hfr, hrest⟩ := h
            subst hrest
            rw [← hfr]
            exact ⟨by omega, rfl, rfl, rfl,
              by simpa using (show hh.frameLength - 4 ≤ (bytes.drop 4).length by omega),
              rfl⟩

theorem readFrameHeader_skip_elim (bytes : List Nat) (rest : List Nat)
    (h : readFrameHeader bytes = .skip rest) :
    rest = [] ∨ rest = bytes.drop 4 := by
  simp only [readFrameHeader] at h
  by_cases h1 : bytes.length = 0
  · rw [if_pos h1] at h; simp at h
  · rw [if_neg h1] at h
    by_cases h2 : bytes.length < 4
    · rw [if_pos h2] at h
      simp only [FrameResult.skip.injEq] at h
      exact .inl h.symm
    · rw [if_neg h2] at h
      cases hdec : decodeFrameHeader (bytes.take 4) with
      | none =>
          rw [hdec] at h
          simp only [FrameResult.skip.injEq] at h
          exact .inr h.symm
      | some hh =>
          rw [hdec] at h
          simp only at h
          by_cases h3 : (bytes.drop 4).length < hh.frameLength - 4
          · rw [if_pos h3] at h
            by_cases h4 : (bytes.drop 4).length = 0
            · rw [if_pos h4] at h
              simp at h
            · rw [if_neg h4] at h
              simp only [FrameResult.skip.injEq] at h
              first
                | exact .inl h.symm
                | exact .inl h
          · rw [if_neg h3] at h
            simp at h

/-- The frames produced by the parse loop are well-formed whenever the
input is made of bytes. -/
theorem parseFrames_wf (fuel : Nat) : ∀ (bytes : List Nat),
    (∀ b ∈ bytes, b < 256) → ∀ fr ∈ parseFrames fuel bytes, FrameWF fr := by
  induction fuel with
  | zero => intro bytes _ fr hfr; simp [parseFrames] at hfr
  | succ n ih =>
      intro bytes hb fr hfr
      rw [parseFrames] at hfr
      cases hr : readFrameHeader bytes with
      | eof => rw [hr] at hfr; simp at hfr
      | skip rest =>
          rw [hr] at hfr
          rcases readFrameHeader_skip_elim bytes rest hr with hrest | hrest
          · subst hrest
            exact ih [] (by simp) fr hfr
          · subst hrest
            exact ih _ (fun b hm => hb b (List.drop_subset _ _ hm)) fr hfr
      | ok f rest =>
          rw [hr] at hfr
          obtain ⟨h4, hhb, hdec, hdata, hle, hrest⟩ := readFrameHeader_ok_elim bytes f rest hr
          rcases List.mem_cons.mp hfr with hfr | hfr
          · subst hfr
            have hfl := (decodeFrameHeader_facts _ _ hdec).1
            refine ⟨?_, ?_, ?_, ?_⟩
            · rw [hhb]; simp; omega
            · intro b hbm
              exact hb b (List.take_subset _ _ (hhb ▸ hbm))
            · rw [hhb]; exact hdec
            · rw [hdata]
              simp only [List.length_take]
              omega
          · subst hrest
            exact ih _ (fun b hm =>
              hb b (List.drop_subset _ _ (List.drop_subset _ _ hm))) fr hfr

/-- `readFrameHeader` consumes exactly one well-formed frame from the
serialized form. -/
theorem readFrameHeader_write (fr : MP3Frame) (tail : List Nat) (hwf : FrameWF fr) :
    readFrameHeader (fr.headerBytes ++ (fr.data ++ tail)) = .ok fr tail := by
  obtain ⟨hlen, hbytes, hdec, hdata⟩ := hwf
  have hfl := (decodeFrameHeader_facts _ _ hdec).1
  have htake : (fr.headerBytes ++ (fr.data ++ tail)).take 4 = fr.headerBytes := by
    rw [← hlen, List.take_left]
  have hdrop : (fr.headerBytes ++ (fr.data ++ tail)).drop 4 = fr.data ++ tail := by
    rw [← hlen, List.drop_left]
  simp only [readFrameHeader]
  rw [if_neg (by simp only [List.length_append, hlen]; omega),
    if_neg (by simp only [List.length_append, hlen]; omega), htake, hdrop, hdec]
  simp only
  have hneed : fr.header.frameLength - 4 = fr.data.length := by omega
  rw [hneed, if_neg (by simp only [List.length_append]; omega),
    List.take_left, List.drop_left]

/-- The parse loop inverts the frame writer on well-formed frames. -/
theorem parseFrames_writeFrames (frames : List MP3Frame) :
    ∀ fuel, (∀ fr ∈ frames, FrameWF fr) → frames.length < fuel →
    parseFrames fuel (writeFrames frames) = frames := by
  induction frames with
  | nil =>
      intro fuel _ hfuel
      obtain ⟨m, rfl⟩ : ∃ m, fuel = m + 1 := ⟨fuel - 1, by omega⟩
      rw [parseFrames]
      rfl
  | cons fr frs ih =>
      intro fuel hwf hfuel
      obtain ⟨m, rfl⟩ : ∃ m, fuel = m + 1 := ⟨fuel - 1, by omega⟩
      have hwr : writeFrames (fr :: frs) =
          fr.headerBytes ++ (fr.data ++ writeFrames frs) := by
        simp [writeFrames]
      rw [parseFrames, hwr, readFrameHeader_write fr (writeFrames frs) (hwf fr (by simp))]
      simp only
      rw [ih m (fun g hg => hwf g (by simp [hg])) (by simp at hfuel; omega)]

theorem writeFrames_length_ge (frames : List MP3Frame)
    (hwf : ∀ fr ∈ frames, FrameWF fr) :
    4 * frames.length ≤ (writeFrames frames).length := by
  induction frames with
  | nil => simp [writeFrames]
  | cons fr frs ih =>
      have h1 : fr.headerBytes.length = 4 := (hwf fr (by simp)).1
      have h2 := ih (fun g hg => hwf g (by simp [hg]))
      simp only [writeFrames, List.map_cons, List.flatten_cons, List.length_append,
        List.length_cons] at *
      omega

/-- The full parse/write round trip on well-formed files with at least one
frame. -/
theorem parseMP3File_writeMP3File (f : MP3File)
    (hwf : ∀ fr ∈ f.frames, FrameWF fr) (hid3 : ID3WF f)
    (hne : f.frames ≠ []) :
    parseMP3File (writeMP3File f) = .ok f := by
  obtain ⟨id3, id3Data, frames⟩ := f
  simp only at hwf hne ⊢
  obtain ⟨fr0, frs, hfr0⟩ : ∃ fr0 frs, frames = fr0 :: frs := by
    cases hv : frames with
    | nil => exact absurd hv hne
    | cons a l => exact ⟨a, l, rfl⟩
  have hwr0 : writeFrames frames = fr0.headerBytes ++ (fr0.data ++ writeFrames frs) := by
    rw [hfr0]
    simp [writeFrames]
  have hwf0 : FrameWF fr0 := hwf fr0 (by rw [hfr0]; simp)
  have hhb4 : fr0.headerBytes.length = 4 := hwf0.1
  have hfl0 := (decodeFrameHeader_facts _ _ hwf0.2.2.1).1
  have hdlen : fr0.data.length + 4 = fr0.header.frameLength := hwf0.2.2.2
  have hframes_len : 96 ≤ (writeFrames frames).length := by
    rw [hwr0]
    simp only [List.length_append]
    omega
  have hfirst : (writeFrames frames).getD 0 0 = 255 := by
    rw [hwr0]
    obtain ⟨b0, b1, b2, b3, h4⟩ := list_len4 _ hhb4
    have h255 := FrameWF_first_byte fr0 hwf0
    rw [h4] at h255 ⊢
    simpa using h255
  have hfuel : frames.length < (writeFrames frames).length + 1 := by
    have := writeFrames_length_ge frames hwf
    omega
  cases id3 with
  | none =>
      have hdata : id3Data = [] := hid3
      subst hdata
      have hw : writeMP3File ⟨none, [], frames⟩ = writeFrames frames := by
        unfold writeMP3File
        simp
      rw [hw]
      have hprobe : (writeFrames frames).take 3 ≠ [73, 68, 51] := by
        intro hc
        have hsplit : writeFrames frames = 73 :: 68 :: 51 :: (writeFrames frames).drop 3 := by
          conv_lhs => rw [← List.take_append_drop 3 (writeFrames frames)]
          rw [hc]
          rfl
        rw [hsplit] at hfirst
        simp only [List.getD_cons_zero] at hfirst
        omega
      unfold parseMP3File readID3v2
      rw [if_neg (by omega), if_pos hprobe]
      simp only
      rw [parseFrames_writeFrames frames _ hwf hfuel]
  | some hdr =>
      have hid3' : hdr.size < 2 ^ 28 ∧ id3Data.length = hdr.size := hid3
      have hw : writeMP3File ⟨some hdr, id3Data, frames⟩ =
          73 :: 68 :: 51 :: hdr.version0 :: hdr.version1 :: hdr.flags ::
            (encodeSyncSafe hdr.size ++ (id3Data ++ writeFrames frames)) := by
        unfold writeMP3File
        simp
      rw [hw]
      unfold parseMP3File readID3v2
      rw [if_neg (by simp only [List.length_cons, List.length_append]; omega)]
      rw [if_neg (by simp)]
      have hdrop6 : (73 :: 68 :: 51 :: hdr.version0 :: hdr.version1 :: hdr.flags ::
          (encodeSyncSafe hdr.size ++ (id3Data ++ writeFrames frames))).drop 6 =
          encodeSyncSafe hdr.size ++ (id3Data ++ writeFrames frames) := by
        simp
      have htake4 : (encodeSyncSafe hdr.size ++
          (id3Data ++ writeFrames frames)).take 4 = encodeSyncSafe hdr.size := by
        have h4 : (encodeSyncSafe hdr.size).length = 4 := rfl
        rw [← h4, List.take_left]
      have hdrop10 : (73 :: 68 :: 51 :: hdr.version0 :: hdr.version1 :: hdr.flags ::
          (encodeSyncSafe hdr.size ++ (id3Data ++ writeFrames frames))).drop 10 =
          id3Data ++ writeFrames frames := by
        simp [encodeSyncSafe]
      rw [hdrop6, htake4, syncSafeToInt_encodeSyncSafe hdr.size hid3'.1, hdrop10]
      rw [if_neg (by simp [hid3'.2])]
      simp only [List.getD_cons_zero, List.getD_cons_succ]
      rw [← hid3'.2, List.take_left, List.drop_left]
      rw [parseFrames_writeFrames frames _ hwf hfuel, hid3'.2]

/-! ## Claim C5: capacity formula (corrected) -/

/-- The per-frame sum of safe-byte counts in `CalculateCapacity` equals the
length of the concatenated safe view. -/
theorem totalSafe_eq_collect_length (frames : List MP3Frame) :
    (frames.map (fun fr =>
      match analyzeFrameData fr.header fr.data with
      | .ok r => (getSafeModificationBytes r).length
      | .error _ => 0)).sum = (collectSafeBytes frames).length := by
  unfold collectSafeBytes frameRegionsList
  rw [List.length_flatten, List.map_map, List.map_map]
  congr 1
  apply List.map_congr_left
  intro fr _
  cases hE : analyzeFrameData fr.header fr.data <;>
    simp [hE, emptyRegions, getSafeModificationBytes]

/-- **C5 (amended).** For every MP3 that parses with total safe-view
length `L ≥ 1` and `lsb_bits = k ∈ {1,2,3,4}`: when `⌊L·k/8⌋ ≥ 8`,
`CalculateCapacity` returns `⌊L·k/8⌋ − 8`; when `⌊L·k/8⌋ < 8` it returns
an error (the claim's unconditional formula would be negative there). -/
theorem calculateCapacity_formula (cfg : StegoConfig) (mp3Data : List Nat)
    (f : MP3File) (hparse : parseMP3File mp3Data = .ok f)
    (hL : 1 ≤ (collectSafeBytes f.frames).length)
    (_hlsb : 1 ≤ cfg.lsbBits ∧ cfg.lsbBits ≤ 4) :
    (8 ≤ (collectSafeBytes f.frames).length * cfg.lsbBits / 8 →
      calculateCapacity cfg mp3Data =
        .ok ((collectSafeBytes f.frames).length * cfg.lsbBits / 8 - 8)) ∧
    ((collectSafeBytes f.frames).length * cfg.lsbBits / 8 < 8 →
      (calculateCapacity cfg mp3Data).toOption = none) := by
  unfold calculateCapacity
  rw [hparse]
  simp only [totalSafe_eq_collect_length]
  constructor
  · intro h8
    rw [if_neg (by omega), if_neg (by omega)]
  · intro h8
    by_cases h0 : (collectSafeBytes f.frames).length = 0
    · rw [if_pos h0]
      rfl
    · rw [if_neg h0, if_pos h8]
      rfl

/-- Witness for the amended C5 on the two-frame carrier:
`L = 150`, `k = 2`, capacity `⌊300/8⌋ − 8 = 29`. -/
theorem calculateCapacity_formula_witness :
    calculateCapacity cfgSeqLsb2 mp3TwoFrames = .ok 29 := by
  have h := (calculateCapacity_formula cfgSeqLsb2 mp3TwoFrames fileTwoFrames
    (by rfl) (by decide) (by decide)).1 (by decide)
  have h2 : (collectSafeBytes fileTwoFrames.frames).length * cfgSeqLsb2.lsbBits / 8 - 8
      = 29 := by decide
  rw [h2] at h
  exact h

/-- **C5 counterexample.** `mp3SmallSafe` parses successfully with
safe-view length `L = 20 ≥ 1`, yet with `lsb_bits = 1` `CalculateCapacity`
returns an error rather than the claimed `⌊20·1/8⌋ − 8` usable bytes
(which would be negative). -/
theorem calculateCapacity_counterexample :
    (parseMP3File mp3SmallSafe).toOption.isSome = true ∧
    (match parseMP3File mp3SmallSafe with
     | .ok f => (collectSafeBytes f.frames).length
     | .error _ => 0) = 20 ∧
    calculateCapacity cfgSeqLsb1 mp3SmallSafe =
      .error "insufficient ancillary data for metadata" :=
  ⟨by decide, by decide, rfl⟩

/-! ## Claim C6: main-data clipping bound (corrected) -/

/-- **C6 (amended).** For every frame successfully analyzed whose data
extends at least 20 bytes past the side info, the main-data region is
clipped so that at least 20 bytes remain after it:
`main_bytes + 20 ≤ len(rest)`.  (For frames with fewer than 20 bytes after
the side info the code instead allows main data to fill the whole
remainder.) -/
theorem analyze_clip_bound (h : MP3FrameHeader) (d : List Nat) (r : MP3FrameRegions)
    (hok : analyzeFrameData h d = .ok r)
    (hroom : sideInfoSizeOf h + 20 ≤ d.length) :
    r.mainData.length + 20 ≤ d.length - sideInfoSizeOf h := by
  have hside : 9 ≤ sideInfoSizeOf h := by
    unfold sideInfoSizeOf
    split <;> split <;> omega
  simp only [analyzeFrameData, mainBytesOf] at hok
  rw [if_neg (by omega), if_neg (by omega)] at hok
  have hr := (Except.ok.injEq _ _).mp hok
  subst hr
  simp only [List.length_take, List.length_drop]
  have h20 : ¬(d.length - sideInfoSizeOf h < 20) := by omega
  simp only [if_neg h20]
  split <;> omega

/-- Witness for the amended C6 on the all-zero-side-info frame:
`main_bytes = 0` and 75 bytes remain. -/
theorem analyze_clip_bound_witness :
    rZ.mainData.length + 20 ≤ frameDataZ.length - sideInfoSizeOf hdrZ :=
  analyze_clip_bound hdrZ frameDataZ rZ rfl (by decide)

/-- **C6 counterexample.** A successfully analyzed MPEG-2 mono frame with
15 data bytes (more than the 9-byte side info) whose side info claims 4095
bits of main data: main data is clipped only to the whole 6-byte
remainder, so `main_bytes = 6 > len(rest) − 20` and zero bytes — not 20 —
remain after the main data. -/
theorem analyze_clip_counterexample :
    ((analyzeFrameData ⟨2, 1, false, 32000, 48000, false, 3, 96⟩
        (List.replicate 15 255)).toOption.map (fun r => r.mainData.length))
      = some 6 ∧
    sideInfoSizeOf ⟨2, 1, false, 32000, 48000, false, 3, 96⟩ = 9 ∧
    (List.replicate 15 (255 : Nat)).length = 15 ∧
    ¬((6 : Int) ≤ 15 - 9 - 20) :=
  ⟨by decide, by decide, by decide, by decide⟩


/-! ## Region analysis lemmas -/

theorem mainBytesOf_le (h : MP3FrameHeader) (d : List Nat) :
    mainBytesOf h d ≤ (d.drop (sideInfoSizeOf h)).length := by
  simp only [mainBytesOf]
  split <;> split <;> omega

theorem analyzeFrameData_elim (h : MP3FrameHeader) (d : List Nat) (r : MP3FrameRegions)
    (hok : analyzeFrameData h d = .ok r) :
    4 ≤ d.length ∧
    ((d.length ≤ sideInfoSizeOf h ∧ r = ⟨d, [], [], []⟩) ∨
     (sideInfoSizeOf h < d.length ∧
      r.sideInfo = d.take (sideInfoSizeOf h) ∧
      r.mainData = (d.drop (sideInfoSizeOf h)).take (mainBytesOf h d) ∧
      getSafeModificationBytes r =
        (d.drop (sideInfoSizeOf h)).drop (mainBytesOf h d))) := by
  simp only [analyzeFrameData] at hok
  by_cases h1 : d.length < 4
  · rw [if_pos h1] at hok
    simp at hok
  · rw [if_neg h1] at hok
    by_cases h2 : sideInfoSizeOf h ≥ d.length
    · rw [if_pos h2] at hok
      have hr := (Except.ok.injEq _ _).mp hok
      exact ⟨by omega, .inl ⟨by omega, hr.symm⟩⟩
    · rw [if_neg h2] at hok
      have hr := (Except.ok.injEq _ _).mp hok
      subst hr
      refine ⟨by omega, .inr ⟨by omega, rfl, rfl, ?_⟩⟩
      simp only [getSafeModificationBytes]
      exact List.take_append_drop _ _

/-- A successfully analyzed frame's data is the concatenation of its four
regions. -/
theorem analyzeFrameData_split (h : MP3FrameHeader) (d : List Nat) (r : MP3FrameRegions)
    (hok : analyzeFrameData h d = .ok r) :
    d = r.sideInfo ++ r.mainData ++ getSafeModificationBytes r := by
  obtain ⟨h4, hcase⟩ := analyzeFrameData_elim h d r hok
  rcases hcase with ⟨hle, hr⟩ | ⟨hlt, hside, hmain, hsafe⟩
  · subst hr
    simp [getSafeModificationBytes]
  · rw [hside, hmain, hsafe]
    rw [List.append_assoc, List.take_append_drop, List.take_append_drop]

theorem getSafe_length (h : MP3FrameHeader) (d : List Nat) (r : MP3FrameRegions)
    (hok : analyzeFrameData h d = .ok r) :
    r.sideInfo.length + r.mainData.length + (getSafeModificationBytes r).length
      = d.length := by
  have hsplit := analyzeFrameData_split h d r hok
  rw [hsplit]
  simp only [List.length_append]

/-- With a replacement of exactly the original safe length,
`ReconstructFrameData` is plain concatenation. -/
theorem reconstructFrameData_eq (r : MP3FrameRegions) (m : List Nat)
    (hm : m.length = (getSafeModificationBytes r).length) :
    reconstructFrameData r m = r.sideInfo ++ r.mainData ++ m := by
  simp only [reconstructFrameData]
  have hlen : m.length = r.ancillaryData.length + r.trailingPadding.length := by
    simpa [getSafeModificationBytes] using hm
  rw [if_pos (by omega)]
  rw [show r.ancillaryData.length + r.trailingPadding.length - m.length = 0 by omega]
  simp

/-- Re-analyzing a reconstructed frame yields the same side-info and
main-data regions and recovers the replacement bytes as the safe view. -/
theorem analyze_reconstruct (h : MP3FrameHeader) (d : List Nat) (r : MP3FrameRegions)
    (hok : analyzeFrameData h d = .ok r) (m : List Nat)
    (hm : m.length = (getSafeModificationBytes r).length) :
    ∃ r2, analyzeFrameData h (reconstructFrameData r m) = .ok r2 ∧
      r2.sideInfo = r.sideInfo ∧ r2.mainData = r.mainData ∧
      getSafeModificationBytes r2 = m := by
  have hrec := reconstructFrameData_eq r m hm
  have hsplit := analyzeFrameData_split h d r hok
  have hlen : (reconstructFrameData r m).length = d.length := by
    rw [hrec, hsplit]
    simp [hm]
  obtain ⟨h4, hcase⟩ := analyzeFrameData_elim h d r hok
  rcases hcase with ⟨hle, hr⟩ | ⟨hlt, hside, hmain, hsafe⟩
  · -- short frame: empty safe view, frame unchanged
    have hsafe0 : getSafeModificationBytes r = [] := by
      subst hr
      rfl
    have hm0 : m = [] := by
      rw [hsafe0] at hm
      exact List.length_eq_zero.mp hm
    have hd : reconstructFrameData r m = d := by
      rw [hrec, hm0, hsplit, hsafe0]
    refine ⟨r, ?_, rfl, rfl, ?_⟩
    · rw [hd]
      exact hok
    · rw [hsafe0, hm0]
  · -- main branch
    have hsidelen : r.sideInfo.length = sideInfoSizeOf h := by
      rw [hside]
      simp only [List.length_take]
      omega
    have hmainlen : r.mainData.length = mainBytesOf h d := by
      rw [hmain]
      simp only [List.length_take, List.length_drop]
      have := mainBytesOf_le h d
      simp only [List.length_drop] at this
      omega
    have htake_side : (reconstructFrameData r m).take (sideInfoSizeOf h) = r.sideInfo := by
      rw [hrec, List.append_assoc, ← hsidelen, List.take_left]
    have hdrop_side : (reconstructFrameData r m).drop (sideInfoSizeOf h) =
        r.mainData ++ m := by
      rw [hrec, List.append_assoc, ← hsidelen, List.drop_left]
    have hmb : mainBytesOf h (reconstructFrameData r m) = mainBytesOf h d := by
      simp only [mainBytesOf]
      rw [htake_side, hdrop_side, hside]
      have hrem : (r.mainData ++ m).length = (d.drop (sideInfoSizeOf h)).length := by
        simp only [List.length_append, List.length_drop]
        rw [hmainlen]
        simp only [hm, hsafe, List.length_drop, List.length_drop]
        have := mainBytesOf_le h d
        simp only [List.length_drop] at this
        omega
      rw [hrem]
    have htake_main : (r.mainData ++ m).take (mainBytesOf h d) = r.mainData := by
      rw [← hmainlen, List.take_left]
    have hdrop_main : (r.mainData ++ m).drop (mainBytesOf h d) = m := by
      rw [← hmainlen, List.drop_left]
    refine ⟨⟨r.sideInfo,
      r.mainData,
      m.take (paddingStartOf m),
      m.drop (paddingStartOf m)⟩, ?_, rfl, rfl, ?_⟩
    · simp only [analyzeFrameData]
      rw [if_neg (by omega), if_neg (by omega)]
      rw [htake_side, hdrop_side, hmb, htake_main, hdrop_main]
    · simp only [getSafeModificationBytes]
      exact List.take_append_drop _ _


/-! ## Parse output well-formedness -/

theorem readID3v2_elim (bytes : List Nat) (hdr : Option ID3v2Header)
    (id3Data rest : List Nat)
    (h : readID3v2 bytes = .ok (hdr, id3Data, rest)) :
    (hdr = none ∧ id3Data = [] ∧ rest = bytes) ∨
    (∃ hh, hdr = some hh ∧ hh.size < 2 ^ 28 ∧ id3Data.length = hh.size ∧
      rest = (bytes.drop 10).drop hh.size) := by
  simp only [readID3v2] at h
  by_cases h1 : bytes.length < 10
  · rw [if_pos h1] at h
    simp at h
  · rw [if_neg h1] at h
    by_cases h2 : bytes.take 3 ≠ [73, 68, 51]
    · rw [if_pos h2] at h
      simp only [Except.ok.injEq, Prod.mk.injEq] at h
      exact .inl ⟨h.1.symm, h.2.1.symm, h.2.2.symm⟩
    · rw [if_neg h2] at h
      by_cases h3 : (bytes.drop 10).length < syncSafeToInt ((bytes.drop 6).take 4)
      · rw [if_pos h3] at h
        simp at h
      · rw [if_neg h3] at h
        simp only [Except.ok.injEq, Prod.mk.injEq] at h
        refine .inr ⟨⟨bytes.getD 3 0, bytes.getD 4 0, bytes.getD 5 0,
          syncSafeToInt ((bytes.drop 6).take 4)⟩, h.1.symm, syncSafeToInt_lt _,
          ?_, h.2.2.symm⟩
        rw [← h.2.1]
        simp only [List.length_take]
        omega

theorem parseMP3File_elim (mp3 : List Nat) (f : MP3File)
    (hp : parseMP3File mp3 = .ok f) :
    ∃ rest, (∀ b ∈ rest, b ∈ mp3) ∧
      f.frames = parseFrames (rest.length + 1) rest ∧ ID3WF f := by
  unfold parseMP3File at hp
  cases hi : readID3v2 mp3 with
  | error e => rw [hi] at hp; simp at hp
  | ok trip =>
      obtain ⟨hdr, id3Data, rest⟩ := trip
      rw [hi] at hp
      simp only [Except.ok.injEq] at hp
      subst hp
      rcases readID3v2_elim mp3 hdr id3Data rest hi with
        ⟨h1, h2, h3⟩ | ⟨hh, h1, h2, h3, h4⟩
      · subst h1
        subst h2
        subst h3
        first
          | exact ⟨rest, fun b hb => hb, rfl, rfl⟩
          | exact ⟨mp3, fun b hb => hb, rfl, rfl⟩
      · subst h1
        subst h4
        refine ⟨(mp3.drop 10).drop hh.size,
          fun b hb => List.drop_subset _ _ (List.drop_subset _ _ hb), rfl, ?_⟩
        exact ⟨h2, h3⟩

theorem parseMP3File_wf (mp3 : List Nat) (f : MP3File)
    (hb : ∀ b ∈ mp3, b < 256) (hp : parseMP3File mp3 = .ok f) :
    (∀ fr ∈ f.frames, FrameWF fr) ∧ ID3WF f := by
  obtain ⟨rest, hsub, hframes, hid3⟩ := parseMP3File_elim mp3 f hp
  refine ⟨?_, hid3⟩
  rw [hframes]
  exact parseFrames_wf _ rest (fun b hbm => hb b (hsub b hbm))

/-! ## Scatter lemmas -/

theorem collectSafeBytes_cons (fr : MP3Frame) (frs : List MP3Frame) :
    collectSafeBytes (fr :: frs) =
      (match analyzeFrameData fr.header fr.data with
       | .ok r => getSafeModificationBytes r
       | .error _ => []) ++ collectSafeBytes frs := by
  simp only [collectSafeBytes, frameRegionsList, List.map_cons, List.flatten_cons]
  cases analyzeFrameData fr.header fr.data <;>
    simp [emptyRegions, getSafeModificationBytes]

theorem collectSafeBytes_cons_len (fr : MP3Frame) (frs : List MP3Frame) :
    (collectSafeBytes (fr :: frs)).length = safeLenOf fr + (collectSafeBytes frs).length := by
  rw [collectSafeBytes_cons]
  simp only [List.length_append, safeLenOf]
  cases analyzeFrameData fr.header fr.data <;> simp

theorem take_drop_chunk (s : List Nat) (idx n m : Nat) :
    (s.drop idx).take n ++ (s.drop (idx + n)).take m = (s.drop idx).take (n + m) := by
  rw [List.take_add, List.drop_drop]

/-- The scatter loop writes the slice `s2[idx : idx+total]` into the
frames' safe views: the recollected safe bytes are exactly that slice, and
every frame is modified only in its safe view. -/
theorem scatterFrames_spec (s2 : List Nat) :
    ∀ (frames : List MP3Frame) (idx : Nat),
      idx + (collectSafeBytes frames).length ≤ s2.length →
      collectSafeBytes (scatterFrames s2 frames (frameRegionsList frames) idx) =
          (s2.drop idx).take (collectSafeBytes frames).length ∧
      List.Forall₂ ScatteredFrame frames
        (scatterFrames s2 frames (frameRegionsList frames) idx) := by
  intro frames
  induction frames with
  | nil =>
      intro idx hle
      simp [scatterFrames, frameRegionsList, collectSafeBytes]
  | cons fr frs ih =>
      intro idx hle
      have hreg : frameRegionsList (fr :: frs) =
          (match analyzeFrameData fr.header fr.data with
           | .ok r => r
           | .error _ => emptyRegions) :: frameRegionsList frs := by
        simp [frameRegionsList]
      rw [hreg]
      rw [collectSafeBytes_cons_len] at hle
      cases han : analyzeFrameData fr.header fr.data with
      | error e =>
          have hn : (getSafeModificationBytes emptyRegions).length = 0 := rfl
          simp only
          rw [scatterFrames]
          rw [if_neg (by omega)]
          have hlen0 : safeLenOf fr = 0 := by
            simp [safeLenOf, han]
          obtain ⟨ihc, ihr⟩ := ih idx (by omega)
          constructor
          · rw [collectSafeBytes_cons, han]
            simp only
            rw [collectSafeBytes_cons_len, hlen0]
            simp only [List.nil_append, Nat.zero_add]
            exact ihc
          · exact List.Forall₂.cons ⟨rfl, rfl, rfl, rfl⟩ ihr
      | ok r =>
          simp only
          by_cases hn : 0 < (getSafeModificationBytes r).length
          · rw [scatterFrames, if_pos hn]
            have hlenfr : safeLenOf fr = (getSafeModificationBytes r).length := by
              simp [safeLenOf, han]
            have hchunklen : ((s2.drop idx).take (getSafeModificationBytes r).length).length
                = (getSafeModificationBytes r).length := by
              simp only [List.length_take, List.length_drop]
              omega
            obtain ⟨r2, hr2, hr2side, hr2main, hr2safe⟩ :=
              analyze_reconstruct fr.header fr.data r han _ hchunklen
            obtain ⟨ihc, ihr⟩ := ih (idx + (getSafeModificationBytes r).length) (by omega)
            have hsplitd := analyzeFrameData_split fr.header fr.data r han
            have hlend := getSafe_length fr.header fr.data r han
            have hreclen : (reconstructFrameData r
                ((s2.drop idx).take (getSafeModificationBytes r).length)).length
                = fr.data.length := by
              rw [reconstructFrameData_eq r _ hchunklen]
              simp only [List.length_append, hchunklen]
              omega
            constructor
            · rw [collectSafeBytes_cons]
              simp only [hr2]
              rw [hr2safe, ihc, collectSafeBytes_cons_len, hlenfr]
              exact take_drop_chunk s2 idx _ _
            · refine List.Forall₂.cons ⟨rfl, rfl, hreclen, ?_⟩ ihr
              simp only
              rw [reconstructFrameData_eq r _ hchunklen]
              have hpre : fr.data.length - safeLenOf fr =
                  r.sideInfo.length + r.mainData.length := by
                rw [hlenfr]
                omega
              rw [hpre]
              conv_rhs => rw [hsplitd]
              rw [show r.sideInfo.length + r.mainData.length =
                (r.sideInfo ++ r.mainData).length by simp]
              rw [List.take_left, List.take_left]
          · rw [scatterFrames, if_neg hn]
            have hlen0 : safeLenOf fr = 0 := by
              simp only [safeLenOf, han]
              omega
            obtain ⟨ihc, ihr⟩ := ih idx (by omega)
            have hsafe0 : getSafeModificationBytes r = [] :=
              List.length_eq_zero.mp (by omega)
            constructor
            · rw [collectSafeBytes_cons, han]
              simp only
              rw [hsafe0, collectSafeBytes_cons_len, hlen0]
              simp only [List.nil_append, Nat.zero_add]
              exact ihc
            · exact List.Forall₂.cons ⟨rfl, rfl, rfl, rfl⟩ ihr


/-! ## Embed characterization -/

theorem embedIntoSafe_length (lsb : Nat) (bits : List Nat) :
    ∀ (ps : List Nat) (bi : Nat) (s : List Nat),
      (embedIntoSafe lsb bits ps bi s).length = s.length := by
  intro ps
  induction ps with
  | nil => intro bi s; rfl
  | cons p pt ih =>
      intro bi s
      rw [embedIntoSafe]
      split
      · rfl
      · rw [ih]
        simp

/-- Unpacking of a successful `EmbedInMP3` call into its intermediate
values. -/
theorem embedInMP3_elim (cfg : StegoConfig) (rng : Nat → Nat) (fuel : Nat)
    (mp3Data secretData out : List Nat)
    (h : embedInMP3 cfg rng fuel mp3Data secretData = .ok out) :
    ∃ f capacity,
      parseMP3File mp3Data = .ok f ∧
      calculateCapacity cfg mp3Data = .ok capacity ∧
      (mkPayload cfg secretData).length ≤ capacity ∧
      1 ≤ (collectSafeBytes f.frames).length ∧
      bytesNeededFor ((mkPayload cfg secretData).length * 8) cfg.lsbBits ≤
        (collectSafeBytes f.frames).length ∧
      out = writeMP3File ⟨f.id3v2, f.id3v2Data,
        scatterFrames
          (embedIntoSafe cfg.lsbBits (bytesToBits (mkPayload cfg secretData))
            (generatePositions cfg rng fuel (collectSafeBytes f.frames).length
              (bytesNeededFor ((mkPayload cfg secretData).length * 8) cfg.lsbBits))
            0 (collectSafeBytes f.frames))
          f.frames (frameRegionsList f.frames) 0⟩ := by
  simp only [embedInMP3] at h
  cases hparse : parseMP3File mp3Data with
  | error e => rw [hparse] at h; simp at h
  | ok f =>
      rw [hparse] at h
      simp only at h
      cases hcap : calculateCapacity cfg mp3Data with
      | error e => rw [hcap] at h; simp at h
      | ok capacity =>
          rw [hcap] at h
          simp only at h
          by_cases h1 : (mkPayload cfg secretData).length > capacity
          · rw [if_pos h1] at h; simp at h
          · rw [if_neg h1] at h
            by_cases h2 : ((frameRegionsList f.frames).map
                getSafeModificationBytes).flatten.length = 0
            · rw [if_pos h2] at h; simp at h
            · rw [if_neg h2] at h
              by_cases h3 : bytesNeededFor ((mkPayload cfg secretData).length * 8)
                  cfg.lsbBits >
                  ((frameRegionsList f.frames).map getSafeModificationBytes).flatten.length
              · rw [if_pos h3] at h; simp at h
              · rw [if_neg h3] at h
                simp only [Except.ok.injEq] at h
                have hcollect : ((frameRegionsList f.frames).map
                    getSafeModificationBytes).flatten = collectSafeBytes f.frames := rfl
                rw [hcollect] at h h2 h3
                exact ⟨f, capacity, rfl, rfl, by omega, by omega, by omega, h.symm⟩

theorem writeFrames_length_congr (frames frames2 : List MP3Frame)
    (h : List.Forall₂ ScatteredFrame frames frames2) :
    (writeFrames frames2).length = (writeFrames frames).length := by
  induction h with
  | nil => rfl
  | cons hrel hrest ih =>
      rename_i fr fr2 frs frs2
      have e1 : writeFrames (fr :: frs) = (fr.headerBytes ++ fr.data) ++ writeFrames frs := by
        simp [writeFrames]
      have e2 : writeFrames (fr2 :: frs2) =
          (fr2.headerBytes ++ fr2.data) ++ writeFrames frs2 := by
        simp [writeFrames]
      rw [e1, e2]
      simp only [List.length_append]
      rw [hrel.1, hrel.2.2.1, ih]

theorem writeMP3File_length_congr (f f2 : MP3File)
    (hid : f2.id3v2 = f.id3v2) (hdata : f2.id3v2Data = f.id3v2Data)
    (hfr : (writeFrames f2.frames).length = (writeFrames f.frames).length) :
    (writeMP3File f2).length = (writeMP3File f).length := by
  unfold writeMP3File
  rw [hid, hdata]
  simp only [List.length_append, hfr]


/-! ## LSB write/read arithmetic -/

theorem getD_set_self (S : List Nat) (p v : Nat) (hp : p < S.length) :
    (S.set p v).getD p 0 = v := by
  rw [List.getD_eq_getElem?_getD, List.getElem?_set]
  simp [hp]

theorem getD_set_ne (S : List Nat) (p q v : Nat) (hne : p ≠ q) :
    (S.set p v).getD q 0 = S.getD q 0 := by
  rw [List.getD_eq_getElem?_getD, List.getElem?_set, if_neg hne,
    ← List.getD_eq_getElem?_getD]

theorem lsbMask_eq (lsb : Nat) (h1 : 1 ≤ lsb) (h4 : lsb ≤ 4) :
    lsbMask lsb = 2 ^ lsb - 1 := by
  interval_cases lsb <;> rfl

/-- Writing `w` into the low `lsb` bits of a byte and reading them back
yields `w`. -/
theorem masked_write_read (lsb a w : Nat) (h1 : 1 ≤ lsb) (h4 : lsb ≤ 4)
    (hw : w < 2 ^ lsb) :
    ((a &&& (255 - lsbMask lsb)) ||| (w &&& lsbMask lsb)) &&& lsbMask lsb = w := by
  have hz : (255 - lsbMask lsb) &&& lsbMask lsb = 0 := by
    interval_cases lsb <;> decide
  have hwm : w &&& lsbMask lsb = w := by
    rw [lsbMask_eq lsb h1 h4, Nat.and_pow_two_sub_one_eq_mod]
    exact Nat.mod_eq_of_lt hw
  rw [Nat.and_distrib_right, Nat.and_assoc, hz, Nat.and_zero, Nat.zero_or,
    Nat.and_assoc, Nat.and_self, hwm]

theorem bit1_extract : ∀ b0 < 2, ∀ j < 1,
    (((0 ||| b0 <<< 0)) >>> j) &&& 1 = [b0].getD j 0 := by
  decide

theorem bit2_extract : ∀ b0 < 2, ∀ b1 < 2, ∀ j < 2,
    (((0 ||| b0 <<< 0) ||| b1 <<< 1) >>> j) &&& 1 = [b0, b1].getD j 0 := by
  decide

theorem bit3_extract : ∀ b0 < 2, ∀ b1 < 2, ∀ b2 < 2, ∀ j < 3,
    ((((0 ||| b0 <<< 0) ||| b1 <<< 1) ||| b2 <<< 2) >>> j) &&& 1 =
      [b0, b1, b2].getD j 0 := by
  decide

theorem bit4_extract : ∀ b0 < 2, ∀ b1 < 2, ∀ b2 < 2, ∀ b3 < 2, ∀ j < 4,
    (((((0 ||| b0 <<< 0) ||| b1 <<< 1) ||| b2 <<< 2) ||| b3 <<< 3) >>> j) &&& 1 =
      [b0, b1, b2, b3].getD j 0 := by
  decide

theorem bit1_bound : ∀ b0 < 2, (0 ||| b0 <<< 0) < 2 ^ 1 := by
  decide

theorem bit2_bound : ∀ b0 < 2, ∀ b1 < 2,
    ((0 ||| b0 <<< 0) ||| b1 <<< 1) < 2 ^ 2 := by
  decide

theorem bit3_bound : ∀ b0 < 2, ∀ b1 < 2, ∀ b2 < 2,
    (((0 ||| b0 <<< 0) ||| b1 <<< 1) ||| b2 <<< 2) < 2 ^ 3 := by
  decide

theorem bit4_bound : ∀ b0 < 2, ∀ b1 < 2, ∀ b2 < 2, ∀ b3 < 2,
    ((((0 ||| b0 <<< 0) ||| b1 <<< 1) ||| b2 <<< 2) ||| b3 <<< 3) < 2 ^ 4 := by
  decide

theorem guard_or_shift (c : Prop) [Decidable c] (v x i : Nat) :
    (if c then v ||| (x <<< i) else v) = v ||| ((if c then x else 0) <<< i) := by
  split
  · rfl
  · rw [Nat.zero_shiftLeft, Nat.or_zero]

theorem getD_lt_two (bits : List Nat) (hbits : ∀ b ∈ bits, b < 2) (k : Nat) :
    bits.getD k 0 < 2 := by
  rcases Nat.lt_or_ge k bits.length with hk | hk
  · rw [List.getD_eq_getElem _ _ hk]
    exact hbits _ (List.getElem_mem hk)
  · rw [List.getD_eq_default _ _ hk]
    norm_num

/-- The packed group value as an explicit guarded-bit expression, for
each admissible `lsb`. -/
theorem packBits_unfold (bits : List Nat) (bi lsb : Nat) (h1 : 1 ≤ lsb) (h4 : lsb ≤ 4) :
    packBits bits bi lsb =
      (List.range lsb).foldl (fun v j =>
        v ||| ((if bi + j < bits.length then bits.getD (bi + j) 0 else 0) <<< j)) 0 := by
  unfold packBits
  interval_cases lsb <;>
    simp only [List.range_succ, List.range_zero, List.nil_append, List.cons_append,
      List.foldl_cons, List.foldl_nil, List.foldl_append, guard_or_shift]

theorem packBits_lt (bits : List Nat) (hbits : ∀ b ∈ bits, b < 2) (bi lsb : Nat)
    (h1 : 1 ≤ lsb) (h4 : lsb ≤ 4) :
    packBits bits bi lsb < 2 ^ lsb := by
  rw [packBits_unfold bits bi lsb h1 h4]
  have hg : ∀ k, (if bi + k < bits.length then bits.getD (bi + k) 0 else 0) < 2 := by
    intro k
    split
    · exact getD_lt_two bits hbits _
    · norm_num
  interval_cases lsb <;>
    simp only [List.range_succ, List.range_zero, List.nil_append, List.cons_append,
      List.foldl_cons, List.foldl_nil, List.foldl_append]
  · exact bit1_bound _ (hg 0)
  · exact bit2_bound _ (hg 0) _ (hg 1)
  · exact bit3_bound _ (hg 0) _ (hg 1) _ (hg 2)
  · exact bit4_bound _ (hg 0) _ (hg 1) _ (hg 2) _ (hg 3)

/-- Bit `j` of the packed group is the corresponding payload bit, or `0`
past the end of the payload. -/
theorem packBits_testBit (bits : List Nat) (hbits : ∀ b ∈ bits, b < 2)
    (bi lsb j : Nat) (h1 : 1 ≤ lsb) (h4 : lsb ≤ 4) (hj : j < lsb) :
    (packBits bits bi lsb >>> j) &&& 1 =
      if bi + j < bits.length then bits.getD (bi + j) 0 else 0 := by
  rw [packBits_unfold bits bi lsb h1 h4]
  have hg : ∀ k, (if bi + k < bits.length then bits.getD (bi + k) 0 else 0) < 2 := by
    intro k
    split
    · exact getD_lt_two bits hbits _
    · norm_num
  interval_cases lsb <;>
    simp only [List.range_succ, List.range_zero, List.nil_append, List.cons_append,
      List.foldl_cons, List.foldl_nil, List.foldl_append]
  · rw [bit1_extract _ (hg 0) j hj]
    interval_cases j <;> rfl
  · rw [bit2_extract _ (hg 0) _ (hg 1) j hj]
    interval_cases j <;> rfl
  · rw [bit3_extract _ (hg 0) _ (hg 1) _ (hg 2) j hj]
    interval_cases j <;> rfl
  · rw [bit4_extract _ (hg 0) _ (hg 1) _ (hg 2) _ (hg 3) j hj]
    interval_cases j <;> rfl

theorem embedIntoSafe_getD_of_not_mem (lsb : Nat) (bits : List Nat) :
    ∀ (P : List Nat) (bi : Nat) (S : List Nat) (q : Nat), q ∉ P →
      (embedIntoSafe lsb bits P bi S).getD q 0 = S.getD q 0 := by
  intro P
  induction P with
  | nil => intro bi S q _; rfl
  | cons p pt ih =>
      intro bi S q hq
      rw [embedIntoSafe]
      simp only [List.mem_cons, not_or] at hq
      split
      · rfl
      · rw [ih _ _ q hq.2]
        exact getD_set_ne S p q _ (Ne.symm hq.1)


theorem extractBitsFrom_cons (lsb : Nat) (safe : List Nat) (p : Nat) (pt : List Nat) :
    extractBitsFrom lsb safe (p :: pt) =
      (List.range lsb).map (fun j => ((safe.getD p 0 &&& lsbMask lsb) >>> j) &&& 1) ++
        extractBitsFrom lsb safe pt := by
  simp [extractBitsFrom]

/-- The bits read back from one group: the payload bits at offsets
`bi, bi+1, ...` padded with zeros past the end of the payload. -/
theorem group_map (bits : List Nat) (bi lsb : Nat) (hbi : bi ≤ bits.length) :
    (List.range lsb).map
        (fun j => if bi + j < bits.length then bits.getD (bi + j) 0 else 0) =
      ((bits.drop bi).take lsb) ++ List.replicate (lsb - (bits.length - bi)) 0 := by
  apply List.ext_getElem
  · simp
    omega
  · intro i h1i h2i
    simp only [List.length_map, List.length_range] at h1i
    simp only [List.getElem_map, List.getElem_range]
    by_cases hc : bi + i < bits.length
    · rw [if_pos hc]
      have hlt : i < ((bits.drop bi).take lsb).length := by
        simp
        omega
      rw [List.getElem_append_left hlt]
      rw [List.getElem_take, List.getElem_drop]
      rw [List.getD_eq_getElem _ _ hc]
    · rw [if_neg hc]
      have hge : ((bits.drop bi).take lsb).length ≤ i := by
        simp
        omega
      rw [List.getElem_append_right hge]
      simp

/-- Reading back all the groups written by the embed walk returns the
payload bits (from offset `bi` on) followed by zero padding. -/
theorem embed_extract_loop (lsb : Nat) (h1 : 1 ≤ lsb) (h4 : lsb ≤ 4)
    (bits : List Nat) (hbits : ∀ b ∈ bits, b < 2) :
    ∀ (P : List Nat) (bi : Nat) (S : List Nat),
      P.Nodup → (∀ p ∈ P, p < S.length) →
      bi ≤ bits.length →
      bits.length ≤ bi + P.length * lsb →
      (P = [] ∨ bi + (P.length - 1) * lsb < bits.length) →
      extractBitsFrom lsb (embedIntoSafe lsb bits P bi S) P =
        bits.drop bi ++ List.replicate (bi + P.length * lsb - bits.length) 0 := by
  intro P
  induction P with
  | nil =>
      intro bi S _ _ hle hge _
      have hbe : bi = bits.length := le_antisymm hle (by simpa using hge)
      subst hbe
      simp [extractBitsFrom]
  | cons p pt ih =>
      intro bi S hnd hlt hle hge hlast
      have hlast' : bi + pt.length * lsb < bits.length := by
        rcases hlast with h | h
        · exact absurd h (by simp)
        · simpa using h
      have hbi_lt : bi < bits.length :=
        Nat.lt_of_le_of_lt (Nat.le_add_right bi (pt.length * lsb)) hlast'
      have hge' : bits.length ≤ bi + (pt.length * lsb + lsb) := by
        have h := hge
        simp only [List.length_cons, Nat.succ_mul] at h
        omega
      have hpnotpt : p ∉ pt := (List.nodup_cons.mp hnd).1
      have hndpt : pt.Nodup := (List.nodup_cons.mp hnd).2
      have hplt : p < S.length := hlt p (List.mem_cons_self p pt)
      rw [embedIntoSafe, if_neg (by omega)]
      rw [extractBitsFrom_cons]
      have hSgetp :
          (embedIntoSafe lsb bits pt (bi + min lsb (bits.length - bi))
              (S.set p ((S.getD p 0 &&& (255 - lsbMask lsb)) |||
                (packBits bits bi lsb &&& lsbMask lsb)))).getD p 0 =
            (S.getD p 0 &&& (255 - lsbMask lsb)) |||
              (packBits bits bi lsb &&& lsbMask lsb) := by
        rw [embedIntoSafe_getD_of_not_mem lsb bits pt _ _ p hpnotpt]
        exact getD_set_self S p _ hplt
      rw [hSgetp]
      have hmr : ((S.getD p 0 &&& (255 - lsbMask lsb)) |||
            (packBits bits bi lsb &&& lsbMask lsb)) &&& lsbMask lsb =
          packBits bits bi lsb :=
        masked_write_read lsb _ _ h1 h4 (packBits_lt bits hbits bi lsb h1 h4)
      simp only [hmr]
      have hgrp : (List.range lsb).map
            (fun j => (packBits bits bi lsb >>> j) &&& 1) =
          (List.range lsb).map
            (fun j => if bi + j < bits.length then bits.getD (bi + j) 0 else 0) :=
        List.map_congr_left (fun j hj =>
          packBits_testBit bits hbits bi lsb j h1 h4 (List.mem_range.mp hj))
      rw [hgrp, group_map bits bi lsb (Nat.le_of_lt hbi_lt)]
      by_cases hcA : bi + lsb ≤ bits.length
      · have hmin : min lsb (bits.length - bi) = lsb := by omega
        rw [hmin]
        rw [ih (bi + lsb) _ hndpt
          (by
            intro q hq
            simpa using hlt q (List.mem_cons_of_mem p hq))
          hcA
          (by omega)
          (by
            rcases eq_or_ne pt [] with hpe | hpe
            · exact Or.inl hpe
            · right
              have hpos : 1 ≤ pt.length := List.length_pos.mpr hpe
              have hsp : pt.length - 1 + 1 = pt.length := Nat.succ_pred_eq_of_pos hpos
              have hmul : (pt.length - 1) * lsb + lsb = pt.length * lsb := by
                calc (pt.length - 1) * lsb + lsb
                    = (pt.length - 1 + 1) * lsb := (Nat.succ_mul _ _).symm
                  _ = pt.length * lsb := by rw [hsp]
              omega)]
        have hz : lsb - (bits.length - bi) = 0 := by omega
        rw [hz, List.replicate_zero, List.append_nil]
        have hdd : bits.drop (bi + lsb) = (bits.drop bi).drop lsb := by
          rw [List.drop_drop, Nat.add_comm]
        rw [hdd, ← List.append_assoc, List.take_append_drop]
        have hcnt : bi + lsb + pt.length * lsb - bits.length =
            bi + (p :: pt).length * lsb - bits.length := by
          simp only [List.length_cons, Nat.succ_mul]
          omega
        rw [hcnt]
      · have hpe : pt = [] := by
          by_contra hne
          have hpos : 1 ≤ pt.length := List.length_pos.mpr hne
          have hle2 : lsb ≤ pt.length * lsb := Nat.le_mul_of_pos_left lsb hpos
          omega
        subst hpe
        have hext : ∀ S0 : List Nat, extractBitsFrom lsb S0 ([] : List Nat) = [] := by
          intro S0
          simp [extractBitsFrom]
        rw [hext, List.append_nil]
        have htk : (bits.drop bi).take lsb = bits.drop bi :=
          List.take_of_length_le (by
            simp
            omega)
        rw [htk]
        have hcnt : lsb - (bits.length - bi) =
            bi + ([p] : List Nat).length * lsb - bits.length := by
          simp
          omega
        rw [hcnt]

/-! ## Envelope, payload and position helpers -/

theorem mkPayload_eq (cfg : StegoConfig) (secretData : List Nat) :
    mkPayload cfg secretData =
      if cfg.useEncryption then vigenereEncrypt cfg.key (envelopeOf cfg secretData)
      else envelopeOf cfg secretData := rfl

theorem envelopeOf_length (cfg : StegoConfig) (secretData : List Nat) :
    (envelopeOf cfg secretData).length =
      8 + cfg.secretFilename.length + secretData.length := by
  simp [envelopeOf, u32be]
  omega

theorem mkPayload_length (cfg : StegoConfig) (secretData : List Nat) :
    (mkPayload cfg secretData).length = (envelopeOf cfg secretData).length := by
  rw [mkPayload_eq]
  split
  · exact vigenereEncrypt_length _ _
  · rfl

theorem envelopeOf_lt_256 (cfg : StegoConfig) (secretData : List Nat)
    (hfb : ∀ b ∈ cfg.secretFilename, b < 256) (hsb : ∀ b ∈ secretData, b < 256) :
    ∀ b ∈ envelopeOf cfg secretData, b < 256 := by
  intro b hb
  simp only [envelopeOf, List.append_assoc, List.mem_append] at hb
  rcases hb with hb | hb | hb | hb
  · exact u32be_lt_256 _ b hb
  · exact hfb b hb
  · exact u32be_lt_256 _ b hb
  · exact hsb b hb

theorem mkPayload_lt_256 (cfg : StegoConfig) (secretData : List Nat)
    (henv : ∀ b ∈ envelopeOf cfg secretData, b < 256) :
    ∀ b ∈ mkPayload cfg secretData, b < 256 := by
  rw [mkPayload_eq]
  split
  · exact vigenereEncrypt_lt_256 _ _ henv
  · exact henv

/-- `bytesNeeded = ⌈n / k⌉`: the smallest group count covering all `n`
bits. -/
theorem bytesNeededFor_bounds (n k : Nat) (hk : 1 ≤ k) :
    n ≤ bytesNeededFor n k * k ∧ (0 < n → (bytesNeededFor n k - 1) * k < n) := by
  obtain ⟨q, hq⟩ : ∃ q, n / k = q := ⟨_, rfl⟩
  obtain ⟨r, hr0⟩ : ∃ r, n % k = r := ⟨_, rfl⟩
  have hdm : k * q + r = n := by
    rw [← hq, ← hr0]
    exact Nat.div_add_mod n k
  have hml : r < k := by
    rw [← hr0]
    exact Nat.mod_lt n (by omega)
  have hqk : q * k = k * q := Nat.mul_comm _ _
  unfold bytesNeededFor
  rw [hq, hr0]
  by_cases hrne : r ≠ 0
  · rw [if_pos hrne]
    have hs : (q + 1) * k = q * k + k := Nat.succ_mul _ _
    have hs1 : q + 1 - 1 = q := by omega
    refine ⟨by rw [hs]; omega, fun _ => by rw [hs1]; omega⟩
  · rw [if_neg hrne]
    simp only [Nat.add_zero]
    refine ⟨by omega, fun hn => ?_⟩
    have hpos : 1 ≤ q := by
      by_contra hlt
      have h0 : q = 0 := by omega
      subst h0
      omega
    have hq1 : q - 1 + 1 = q := by omega
    have hsm : (q - 1) * k + k = q * k := by
      calc (q - 1) * k + k = (q - 1 + 1) * k := (Nat.succ_mul _ _).symm
        _ = q * k := by rw [hq1]
    omega

theorem extractBitsFrom_append (lsb : Nat) (safe l1 l2 : List Nat) :
    extractBitsFrom lsb safe (l1 ++ l2) =
      extractBitsFrom lsb safe l1 ++ extractBitsFrom lsb safe l2 := by
  simp [extractBitsFrom]

theorem generatePositions_full_length (cfg : StegoConfig) (rng : Nat → Nat)
    (fuel L : Nat)
    (hrand : cfg.useRandomStart = true → (buildPerm rng L fuel 0 []).length = L) :
    (generatePositions cfg rng fuel L L).length = L := by
  unfold generatePositions
  by_cases hu : cfg.useRandomStart
  · rw [if_pos hu]
    have hc := hrand hu
    simp only [List.length_take, hc]
    omega
  · rw [if_neg hu]
    simp

/-- In both modes the full position list is duplicate-free, in range, and
the list for a smaller count is its prefix. -/
theorem generatePositions_full_spec (cfg : StegoConfig) (rng : Nat → Nat)
    (fuel L BN : Nat) (hBN : BN ≤ L)
    (hrand : cfg.useRandomStart = true →
      (∀ i, rng i < L) ∧ (buildPerm rng L fuel 0 []).length = L) :
    (generatePositions cfg rng fuel L L).Nodup ∧
    (∀ p ∈ generatePositions cfg rng fuel L L, p < L) ∧
    generatePositions cfg rng fuel L BN = (generatePositions cfg rng fuel L L).take BN := by
  unfold generatePositions
  by_cases hu : cfg.useRandomStart
  · simp only [if_pos hu]
    obtain ⟨hlt, hlen⟩ := hrand hu
    have hnd : (buildPerm rng L fuel 0 []).Nodup :=
      buildPerm_nodup rng L fuel 0 [] List.nodup_nil
    refine ⟨?_, ?_, ?_⟩
    · exact hnd.sublist (List.take_sublist _ _)
    · intro p hp
      exact buildPerm_lt rng L hlt fuel 0 [] (by simp) p (List.mem_of_mem_take hp)
    · rw [hlen, Nat.min_self, Nat.min_eq_left hBN, List.take_take,
        Nat.min_eq_left hBN]
  · simp only [if_neg hu]
    refine ⟨?_, ?_, ?_⟩
    · exact (List.nodup_range _).sublist (List.Sublist.refl _)
    · intro p hp
      rw [List.mem_range] at hp
      omega
    · rw [Nat.min_self, List.take_range]

/-- A scattered frame inherits well-formedness from its source frame. -/
theorem ScatteredFrame_wf (fr fr2 : MP3Frame) (h : ScatteredFrame fr fr2)
    (hwf : FrameWF fr) : FrameWF fr2 := by
  obtain ⟨hhb, hhd, hlen, _⟩ := h
  obtain ⟨h4, hbb, hdec, hfl⟩ := hwf
  refine ⟨?_, ?_, ?_, ?_⟩
  · rw [hhb]
    exact h4
  · rw [hhb]
    exact hbb
  · rw [hhb, hhd]
    exact hdec
  · rw [hlen, hhd]
    exact hfl

theorem forall2_scattered_wf (frames frames2 : List MP3Frame)
    (h : List.Forall₂ ScatteredFrame frames frames2)
    (hwf : ∀ fr ∈ frames, FrameWF fr) : ∀ fr ∈ frames2, FrameWF fr := by
  induction h with
  | nil => simp
  | cons hrel hrest ih =>
      rename_i fr fr2 frs frs2
      intro g hg
      rcases List.mem_cons.mp hg with hg | hg
      · exact hg ▸ ScatteredFrame_wf fr fr2 hrel (hwf fr (by simp))
      · exact ih (fun x hx => hwf x (by simp [hx])) g hg

/-! ## Envelope-check characterization -/

/-- `envelopeChecks` errors exactly on the spec's envelope-bound
violations, and otherwise returns the spec's two slices. -/
theorem envelopeChecks_spec (buf : List Nat) :
    ((∃ e, envelopeChecks buf = .error e) ↔ specEnvelopeViolation buf) ∧
    (¬ specEnvelopeViolation buf → envelopeChecks buf = .ok (specEnvelopeSlices buf)) := by
  simp only [envelopeChecks, specEnvelopeViolation, specEnvelopeSlices, specFilenameLen,
    specDataLen]
  by_cases h1 : be32 (buf.take 4) > 255
  · rw [if_pos h1]
    exact ⟨⟨fun _ => Or.inl h1, fun _ => ⟨_, rfl⟩⟩,
      fun hnv => absurd (Or.inl h1) hnv⟩
  · rw [if_neg h1]
    by_cases h2 : buf.length < 8 + be32 (buf.take 4)
    · rw [if_pos h2]
      have hv : buf.length < 8 + be32 (buf.take 4) +
          be32 ((buf.drop (4 + be32 (buf.take 4))).take 4) := by omega
      exact ⟨⟨fun _ => Or.inr (Or.inr hv), fun _ => ⟨_, rfl⟩⟩,
        fun hnv => absurd (Or.inr (Or.inr hv)) hnv⟩
    · rw [if_neg h2]
      by_cases h3 : be32 ((buf.drop (4 + be32 (buf.take 4))).take 4) > 10485760
      · rw [if_pos h3]
        exact ⟨⟨fun _ => Or.inr (Or.inl h3), fun _ => ⟨_, rfl⟩⟩,
          fun hnv => absurd (Or.inr (Or.inl h3)) hnv⟩
      · rw [if_neg h3]
        by_cases h4 : buf.length < 4 + be32 (buf.take 4) + 4 +
            be32 ((buf.drop (4 + be32 (buf.take 4))).take 4)
        · rw [if_pos h4]
          have hv : buf.length < 8 + be32 (buf.take 4) +
              be32 ((buf.drop (4 + be32 (buf.take 4))).take 4) := by omega
          exact ⟨⟨fun _ => Or.inr (Or.inr hv), fun _ => ⟨_, rfl⟩⟩,
            fun hnv => absurd (Or.inr (Or.inr hv)) hnv⟩
        · rw [if_neg h4]
          constructor
          · constructor
            · rintro ⟨e, he⟩
              simp at he
            · intro hv
              rcases hv with hv | hv | hv
              · omega
              · omega
              · omega
          · intro _
            have he : 4 + be32 (buf.take 4) + 4 = 8 + be32 (buf.take 4) := by omega
            rw [he]

/-- On a well-formed envelope (with any trailing bytes) `envelopeChecks`
returns the data and filename. -/
theorem envelopeChecks_of_wellformed (fn sd tail : List Nat)
    (hfl : fn.length ≤ 255) (hm : sd.length ≤ 10485760) :
    envelopeChecks ((u32be fn.length ++ fn ++ u32be sd.length ++ sd) ++ tail) = .ok (sd, fn) := by
  have hE1 : (u32be fn.length ++ fn ++ u32be sd.length ++ sd) ++ tail =
      u32be fn.length ++ (fn ++ (u32be sd.length ++ (sd ++ tail))) := by
    simp [List.append_assoc]
  have hE2 : (u32be fn.length ++ fn ++ u32be sd.length ++ sd) ++ tail =
      (u32be fn.length ++ fn) ++ (u32be sd.length ++ (sd ++ tail)) := by
    simp [List.append_assoc]
  have hE3 : (u32be fn.length ++ fn ++ u32be sd.length ++ sd) ++ tail =
      (u32be fn.length ++ fn ++ u32be sd.length) ++ (sd ++ tail) := by
    simp [List.append_assoc]
  have hlen : ((u32be fn.length ++ fn ++ u32be sd.length ++ sd) ++ tail).length = 8 + fn.length + sd.length + tail.length := by
    simp [u32be]
    omega
  have htake4 : ((u32be fn.length ++ fn ++ u32be sd.length ++ sd) ++ tail).take 4 = u32be fn.length := by
    rw [hE1]
    exact List.take_left' (u32be_length _)
  have hbe1 : be32 (((u32be fn.length ++ fn ++ u32be sd.length ++ sd) ++ tail).take 4) = fn.length := by
    rw [htake4]
    exact be32_u32be _ (by omega)
  have hdrop4 : ((u32be fn.length ++ fn ++ u32be sd.length ++ sd) ++ tail).drop 4 = fn ++ (u32be sd.length ++ (sd ++ tail)) := by
    rw [hE1]
    exact List.drop_left' (u32be_length _)
  have hfname : (((u32be fn.length ++ fn ++ u32be sd.length ++ sd) ++ tail).drop 4).take fn.length = fn := by
    rw [hdrop4]
    exact List.take_left fn _
  have hdropN : ((u32be fn.length ++ fn ++ u32be sd.length ++ sd) ++ tail).drop (4 + fn.length) = u32be sd.length ++ (sd ++ tail) := by
    rw [hE2]
    exact List.drop_left' (by simp only [List.length_append, u32be_length])
  have hbe2 : be32 ((((u32be fn.length ++ fn ++ u32be sd.length ++ sd) ++ tail).drop (4 + fn.length)).take 4) = sd.length := by
    rw [hdropN, List.take_left' (u32be_length _)]
    exact be32_u32be _ (by omega)
  have hdropD : ((u32be fn.length ++ fn ++ u32be sd.length ++ sd) ++ tail).drop (4 + fn.length + 4) = sd ++ tail := by
    rw [hE3]
    exact List.drop_left' (by simp only [List.length_append, u32be_length])
  have hdata : (((u32be fn.length ++ fn ++ u32be sd.length ++ sd) ++ tail).drop (4 + fn.length + 4)).take sd.length = sd := by
    rw [hdropD]
    exact List.take_left sd _
  simp only [envelopeChecks]
  rw [hbe1]
  rw [if_neg (by omega)]
  rw [if_neg (show ¬ ((u32be fn.length ++ fn ++ u32be sd.length ++ sd) ++ tail).length < 8 + fn.length by rw [hlen]; omega)]
  rw [hbe2]
  rw [if_neg (by omega)]
  rw [if_neg (show ¬ ((u32be fn.length ++ fn ++ u32be sd.length ++ sd) ++ tail).length < 4 + fn.length + 4 + sd.length by rw [hlen]; omega)]
  rw [hfname, hdata]

/-- A buffer starting with a four-byte big-endian length above 255 fails
the filename-length check. -/
theorem envelopeChecks_long (n : Nat) (rest : List Nat) (h1 : 255 < n)
    (h2 : n < 4294967296) :
    envelopeChecks (u32be n ++ rest) = .error "invalid filename length" := by
  simp only [envelopeChecks]
  rw [List.take_left' (u32be_length n), be32_u32be n h2, if_pos h1]

theorem extractedBuf_length (cfg : StegoConfig) (rng : Nat → Nat) (fuel : Nat)
    (f : MP3File) :
    (extractedBuf cfg rng fuel f).length = (extractedRawOf cfg rng fuel f).length := by
  unfold extractedBuf
  split
  · exact vigenereDecrypt_length _ _
  · rfl

/-- After a successful parse with a non-empty safe view and a non-empty
position list, `ExtractFromMP3` is the raw-length guard followed by the
envelope checks. -/
theorem extractFromMP3_unfold (cfg : StegoConfig) (rng : Nat → Nat) (fuel : Nat)
    (mp3Data : List Nat) (f : MP3File)
    (hparse : parseMP3File mp3Data = .ok f)
    (hL : 1 ≤ (collectSafeBytes f.frames).length)
    (hP : 1 ≤ (generatePositions cfg rng fuel (collectSafeBytes f.frames).length
      (collectSafeBytes f.frames).length).length) :
    extractFromMP3 cfg rng fuel mp3Data =
      if (extractedRawOf cfg rng fuel f).length < 8 then
        .error "insufficient extracted data for basic metadata"
      else envelopeChecks (extractedBuf cfg rng fuel f) := by
  simp only [extractFromMP3]
  rw [hparse]
  simp only
  rw [if_neg (by omega), if_neg (by omega)]
  simp only [extractedRawOf, extractedBuf]

/-! ## Embed output analysis -/

/-- A successful embed writes a file that parses back to frames scattered
from the originals, whose recollected safe view is exactly the modified
safe vector. -/
theorem embed_analysis (cfg : StegoConfig) (rng : Nat → Nat) (fuel : Nat)
    (mp3Data secretData out : List Nat) (f : MP3File)
    (hb : ∀ b ∈ mp3Data, b < 256)
    (hparse : parseMP3File mp3Data = .ok f)
    (hok : embedInMP3 cfg rng fuel mp3Data secretData = .ok out) :
    ∃ f2 : MP3File,
      out = writeMP3File f2 ∧
      parseMP3File out = .ok f2 ∧
      f2.id3v2 = f.id3v2 ∧ f2.id3v2Data = f.id3v2Data ∧
      List.Forall₂ ScatteredFrame f.frames f2.frames ∧
      1 ≤ (collectSafeBytes f.frames).length ∧
      bytesNeededFor ((mkPayload cfg secretData).length * 8) cfg.lsbBits ≤
        (collectSafeBytes f.frames).length ∧
      collectSafeBytes f2.frames =
        embedIntoSafe cfg.lsbBits (bytesToBits (mkPayload cfg secretData))
          (generatePositions cfg rng fuel (collectSafeBytes f.frames).length
            (bytesNeededFor ((mkPayload cfg secretData).length * 8) cfg.lsbBits))
          0 (collectSafeBytes f.frames) := by
  obtain ⟨f', capacity, hparse', hcap, hple, hL1, hBN, hout⟩ :=
    embedInMP3_elim cfg rng fuel mp3Data secretData out hok
  rw [hparse] at hparse'
  injection hparse' with hff
  subst hff
  obtain ⟨hwf, hid3⟩ := parseMP3File_wf mp3Data f hb hparse
  have hs2len : (embedIntoSafe cfg.lsbBits (bytesToBits (mkPayload cfg secretData))
          (generatePositions cfg rng fuel (collectSafeBytes f.frames).length
            (bytesNeededFor ((mkPayload cfg secretData).length * 8) cfg.lsbBits))
          0 (collectSafeBytes f.frames)).length = (collectSafeBytes f.frames).length :=
    embedIntoSafe_length _ _ _ _ _
  obtain ⟨hcol, hforall⟩ :=
    scatterFrames_spec (embedIntoSafe cfg.lsbBits (bytesToBits (mkPayload cfg secretData))
          (generatePositions cfg rng fuel (collectSafeBytes f.frames).length
            (bytesNeededFor ((mkPayload cfg secretData).length * 8) cfg.lsbBits))
          0 (collectSafeBytes f.frames)) f.frames 0 (by rw [hs2len]; omega)
  have hcol' : collectSafeBytes (scatterFrames (embedIntoSafe cfg.lsbBits (bytesToBits (mkPayload cfg secretData))
          (generatePositions cfg rng fuel (collectSafeBytes f.frames).length
            (bytesNeededFor ((mkPayload cfg secretData).length * 8) cfg.lsbBits))
          0 (collectSafeBytes f.frames)) f.frames (frameRegionsList f.frames) 0) = embedIntoSafe cfg.lsbBits (bytesToBits (mkPayload cfg secretData))
          (generatePositions cfg rng fuel (collectSafeBytes f.frames).length
            (bytesNeededFor ((mkPayload cfg secretData).length * 8) cfg.lsbBits))
          0 (collectSafeBytes f.frames) := by
    rw [hcol, List.drop_zero]
    exact List.take_of_length_le (le_of_eq hs2len)
  have hfne : f.frames ≠ [] := by
    intro hnil
    rw [hnil] at hL1
    simp [collectSafeBytes, frameRegionsList] at hL1
  have hwf2 : ∀ fr ∈ scatterFrames (embedIntoSafe cfg.lsbBits (bytesToBits (mkPayload cfg secretData))
          (generatePositions cfg rng fuel (collectSafeBytes f.frames).length
            (bytesNeededFor ((mkPayload cfg secretData).length * 8) cfg.lsbBits))
          0 (collectSafeBytes f.frames)) f.frames (frameRegionsList f.frames) 0, FrameWF fr :=
    forall2_scattered_wf _ _ hforall hwf
  have hne2 : (scatterFrames (embedIntoSafe cfg.lsbBits (bytesToBits (mkPayload cfg secretData))
          (generatePositions cfg rng fuel (collectSafeBytes f.frames).length
            (bytesNeededFor ((mkPayload cfg secretData).length * 8) cfg.lsbBits))
          0 (collectSafeBytes f.frames)) f.frames (frameRegionsList f.frames) 0) ≠ [] := by
    intro hnil
    have hl := List.Forall₂.length_eq hforall
    rw [hnil] at hl
    simp only [List.length_nil] at hl
    exact hfne (List.length_eq_zero.mp hl)
  have hparse2 : parseMP3File (writeMP3File ⟨f.id3v2, f.id3v2Data, scatterFrames (embedIntoSafe cfg.lsbBits (bytesToBits (mkPayload cfg secretData))
          (generatePositions cfg rng fuel (collectSafeBytes f.frames).length
            (bytesNeededFor ((mkPayload cfg secretData).length * 8) cfg.lsbBits))
          0 (collectSafeBytes f.frames)) f.frames (frameRegionsList f.frames) 0⟩) =
      .ok ⟨f.id3v2, f.id3v2Data, scatterFrames (embedIntoSafe cfg.lsbBits (bytesToBits (mkPayload cfg secretData))
          (generatePositions cfg rng fuel (collectSafeBytes f.frames).length
            (bytesNeededFor ((mkPayload cfg secretData).length * 8) cfg.lsbBits))
          0 (collectSafeBytes f.frames)) f.frames (frameRegionsList f.frames) 0⟩ :=
    parseMP3File_writeMP3File _ hwf2 hid3 hne2
  refine ⟨⟨f.id3v2, f.id3v2Data, scatterFrames (embedIntoSafe cfg.lsbBits (bytesToBits (mkPayload cfg secretData))
          (generatePositions cfg rng fuel (collectSafeBytes f.frames).length
            (bytesNeededFor ((mkPayload cfg secretData).length * 8) cfg.lsbBits))
          0 (collectSafeBytes f.frames)) f.frames (frameRegionsList f.frames) 0⟩, hout, ?_, rfl, rfl, hforall, hL1, hBN, hcol'⟩
  rw [hout]
  exact hparse2

/-- After a successful embed, extraction with the same configuration runs
the envelope checks on a buffer whose prefix is the plaintext envelope. -/
theorem embed_then_extract (cfg : StegoConfig) (rng : Nat → Nat) (fuel : Nat)
    (mp3Data secretData out : List Nat) (f : MP3File)
    (hb : ∀ b ∈ mp3Data, b < 256)
    (hlsb1 : 1 ≤ cfg.lsbBits) (hlsb4 : cfg.lsbBits ≤ 4)
    (hkey : ∀ b ∈ cfg.key, b < 256)
    (henv : ∀ b ∈ envelopeOf cfg secretData, b < 256)
    (hparse : parseMP3File mp3Data = .ok f)
    (hok : embedInMP3 cfg rng fuel mp3Data secretData = .ok out)
    (hrand : cfg.useRandomStart = true →
      (∀ i, rng i < (collectSafeBytes f.frames).length) ∧
      (buildPerm rng ((collectSafeBytes f.frames).length) fuel 0 []).length = (collectSafeBytes f.frames).length) :
    ∃ buf : List Nat,
      extractFromMP3 cfg rng fuel out = envelopeChecks buf ∧
      buf.take (envelopeOf cfg secretData).length = envelopeOf cfg secretData := by
  obtain ⟨f2, hout, hparse2, hid, hdata, hforall, hL1, hBN, hcol⟩ :=
    embed_analysis cfg rng fuel mp3Data secretData out f hb hparse hok
  obtain ⟨hnd, hltL, hpfx⟩ :=
    generatePositions_full_spec cfg rng fuel ((collectSafeBytes f.frames).length) (bytesNeededFor ((mkPayload cfg secretData).length * 8) cfg.lsbBits) hBN hrand
  have hPEXlen : (generatePositions cfg rng fuel ((collectSafeBytes f.frames).length) ((collectSafeBytes f.frames).length)).length = (collectSafeBytes f.frames).length :=
    generatePositions_full_length cfg rng fuel ((collectSafeBytes f.frames).length) (fun hu => (hrand hu).2)
  have hpaylen : (mkPayload cfg secretData).length = (envelopeOf cfg secretData).length :=
    mkPayload_length cfg secretData
  have henvlen : (envelopeOf cfg secretData).length =
      8 + cfg.secretFilename.length + secretData.length :=
    envelopeOf_length cfg secretData
  have hpay8 : 8 ≤ (mkPayload cfg secretData).length := by
    rw [hpaylen, henvlen]
    omega
  have hbitslen : (bytesToBits (mkPayload cfg secretData)).length = 8 * (mkPayload cfg secretData).length := bytesToBits_length _
  obtain ⟨hbn1, hbn2⟩ :=
    bytesNeededFor_bounds ((mkPayload cfg secretData).length * 8) cfg.lsbBits hlsb1
  have hPEMlen : (generatePositions cfg rng fuel ((collectSafeBytes f.frames).length) (bytesNeededFor ((mkPayload cfg secretData).length * 8) cfg.lsbBits)).length = bytesNeededFor ((mkPayload cfg secretData).length * 8) cfg.lsbBits := by
    rw [hpfx, List.length_take, hPEXlen]
    omega
  have hloop := embed_extract_loop cfg.lsbBits hlsb1 hlsb4 (bytesToBits (mkPayload cfg secretData))
    (bytesToBits_lt_two _) (generatePositions cfg rng fuel ((collectSafeBytes f.frames).length) (bytesNeededFor ((mkPayload cfg secretData).length * 8) cfg.lsbBits)) 0 (collectSafeBytes f.frames)
    (by
      rw [hpfx]
      exact hnd.sublist (List.take_sublist _ _))
    (fun p hp => by
      rw [hpfx] at hp
      exact hltL p (List.mem_of_mem_take hp))
    (Nat.zero_le _)
    (by
      rw [hPEMlen, hbitslen]
      omega)
    (Or.inr (by
      rw [hPEMlen, hbitslen]
      have hd := hbn2 (by omega)
      omega))
  have hsplitP : generatePositions cfg rng fuel ((collectSafeBytes f.frames).length) ((collectSafeBytes f.frames).length) = (generatePositions cfg rng fuel ((collectSafeBytes f.frames).length) (bytesNeededFor ((mkPayload cfg secretData).length * 8) cfg.lsbBits)) ++ (generatePositions cfg rng fuel ((collectSafeBytes f.frames).length) ((collectSafeBytes f.frames).length)).drop (bytesNeededFor ((mkPayload cfg secretData).length * 8) cfg.lsbBits) := by
    rw [hpfx]
    exact (List.take_append_drop (bytesNeededFor ((mkPayload cfg secretData).length * 8) cfg.lsbBits) (generatePositions cfg rng fuel ((collectSafeBytes f.frames).length) ((collectSafeBytes f.frames).length))).symm
  have hbitsall : extractBitsFrom cfg.lsbBits (embedIntoSafe cfg.lsbBits (bytesToBits (mkPayload cfg secretData)) (generatePositions cfg rng fuel ((collectSafeBytes f.frames).length) (bytesNeededFor ((mkPayload cfg secretData).length * 8) cfg.lsbBits)) 0 (collectSafeBytes f.frames)) (generatePositions cfg rng fuel ((collectSafeBytes f.frames).length) ((collectSafeBytes f.frames).length)) =
      (bytesToBits (mkPayload cfg secretData)) ++ (List.replicate (0 + (generatePositions cfg rng fuel ((collectSafeBytes f.frames).length) (bytesNeededFor ((mkPayload cfg secretData).length * 8) cfg.lsbBits)).length * cfg.lsbBits - (bytesToBits (mkPayload cfg secretData)).length) 0 ++
        extractBitsFrom cfg.lsbBits (embedIntoSafe cfg.lsbBits (bytesToBits (mkPayload cfg secretData)) (generatePositions cfg rng fuel ((collectSafeBytes f.frames).length) (bytesNeededFor ((mkPayload cfg secretData).length * 8) cfg.lsbBits)) 0 (collectSafeBytes f.frames)) ((generatePositions cfg rng fuel ((collectSafeBytes f.frames).length) ((collectSafeBytes f.frames).length)).drop (bytesNeededFor ((mkPayload cfg secretData).length * 8) cfg.lsbBits))) := by
    conv_lhs => rw [hsplitP]
    rw [extractBitsFrom_append, hloop, List.drop_zero, List.append_assoc]
  have hpayb : ∀ b ∈ (mkPayload cfg secretData), b < 256 := mkPayload_lt_256 cfg secretData henv
  have hraw2 : extractedRawOf cfg rng fuel f2 =
      (mkPayload cfg secretData) ++ bitsToBytes
        (List.replicate (0 + (generatePositions cfg rng fuel ((collectSafeBytes f.frames).length) (bytesNeededFor ((mkPayload cfg secretData).length * 8) cfg.lsbBits)).length * cfg.lsbBits - (bytesToBits (mkPayload cfg secretData)).length) 0 ++
          extractBitsFrom cfg.lsbBits (embedIntoSafe cfg.lsbBits (bytesToBits (mkPayload cfg secretData)) (generatePositions cfg rng fuel ((collectSafeBytes f.frames).length) (bytesNeededFor ((mkPayload cfg secretData).length * 8) cfg.lsbBits)) 0 (collectSafeBytes f.frames)) ((generatePositions cfg rng fuel ((collectSafeBytes f.frames).length) ((collectSafeBytes f.frames).length)).drop (bytesNeededFor ((mkPayload cfg secretData).length * 8) cfg.lsbBits))) := by
    simp only [extractedRawOf]
    rw [hcol, embedIntoSafe_length, hbitsall]
    rw [bitsToBytes_bytesToBits_append _ _ hpayb]
  have hrawlen8 : 8 ≤ (extractedRawOf cfg rng fuel f2).length := by
    rw [hraw2]
    simp only [List.length_append]
    omega
  have hL2 : 1 ≤ (collectSafeBytes f2.frames).length := by
    rw [hcol, embedIntoSafe_length]
    exact hL1
  have hP1 : 1 ≤ (generatePositions cfg rng fuel (collectSafeBytes f2.frames).length
      (collectSafeBytes f2.frames).length).length := by
    rw [hcol, embedIntoSafe_length, hPEXlen]
    exact hL1
  have hunfold := extractFromMP3_unfold cfg rng fuel out f2 hparse2 hL2 hP1
  rw [if_neg (by omega)] at hunfold
  refine ⟨extractedBuf cfg rng fuel f2, hunfold, ?_⟩
  by_cases henc : cfg.useEncryption
  · have hbufe : extractedBuf cfg rng fuel f2 =
        vigenereDecrypt cfg.key (extractedRawOf cfg rng fuel f2) := by
      unfold extractedBuf
      rw [if_pos henc]
    have hpayenc : (mkPayload cfg secretData) = vigenereEncrypt cfg.key (envelopeOf cfg secretData) := by
      rw [mkPayload_eq, if_pos henc]
    rw [hbufe, vigenereDecrypt_take, hraw2,
      show (envelopeOf cfg secretData).length = (mkPayload cfg secretData).length from hpaylen.symm,
      List.take_left, hpayenc]
    exact vigenereDecrypt_vigenereEncrypt cfg.key _ henv hkey
  · have hbufe : extractedBuf cfg rng fuel f2 = extractedRawOf cfg rng fuel f2 := by
      unfold extractedBuf
      rw [if_neg henc]
    have hpayeq : (mkPayload cfg secretData) = envelopeOf cfg secretData := by
      rw [mkPayload_eq, if_neg henc]
    rw [hbufe, hraw2,
      show (envelopeOf cfg secretData).length = (mkPayload cfg secretData).length from hpaylen.symm,
      List.take_left]
    exact hpayeq

/-! ## Claim C2: length preservation (corrected) -/

/-- **C2 (amended).** For every input that is exactly the writer's image of
its own parse (no stray non-frame bytes), a successful embed returns an
output of the same byte length.  (For inputs with junk bytes the parser
drops them and the output is shorter; see the counterexample.) -/
theorem embed_length_eq (cfg : StegoConfig) (rng : Nat → Nat) (fuel : Nat)
    (mp3Data secretData out : List Nat) (f : MP3File)
    (hb : ∀ b ∈ mp3Data, b < 256)
    (hparse : parseMP3File mp3Data = .ok f)
    (hw : writeMP3File f = mp3Data)
    (hok : embedInMP3 cfg rng fuel mp3Data secretData = .ok out) :
    out.length = mp3Data.length := by
  obtain ⟨f2, hout, _, hid, hdata, hforall, _, _, _⟩ :=
    embed_analysis cfg rng fuel mp3Data secretData out f hb hparse hok
  rw [hout, ← hw]
  exact writeMP3File_length_congr f f2 hid hdata
    (writeFrames_length_congr f.frames f2.frames hforall)

/-- Witness for the amended C2: a successful embed into the junk-free
two-frame carrier preserves its 192-byte length. -/
theorem embed_length_eq_witness :
    embedTwoFramesOut.length = mp3TwoFrames.length :=
  embed_length_eq cfgSeqLsb2 rngZero 0 mp3TwoFrames [1, 2, 3] embedTwoFramesOut
    fileTwoFrames (by decide) rfl rfl rfl

/-- **C2 counterexample.** On a carrier with four trailing non-frame junk
bytes the embed succeeds but returns 192 bytes for a 196-byte input: the
parse loop silently drops the junk and the writer never restores it. -/
theorem embed_length_counterexample :
    ∃ out, embedInMP3 cfgSeqLsb4 rngZero 0 mp3WithJunk [] = .ok out ∧
      out.length ≠ mp3WithJunk.length := by
  refine ⟨(embedInMP3 cfgSeqLsb4 rngZero 0 mp3WithJunk []).toOption.getD [], rfl, ?_⟩
  decide

/-! ## Claim C3: frame-prefix preservation -/

/-- **C3.** Every parsed frame of a successful embed's output keeps the
input frame's 4 header bytes, and — whenever `AnalyzeFrameData` succeeds on
the input frame — the first `side_info_size + main_bytes` data bytes are
unchanged: only the ancillary+padding region may differ. -/
theorem embed_preserves_frames (cfg : StegoConfig) (rng : Nat → Nat) (fuel : Nat)
    (mp3Data secretData out : List Nat) (f : MP3File)
    (hb : ∀ b ∈ mp3Data, b < 256)
    (hparse : parseMP3File mp3Data = .ok f)
    (hok : embedInMP3 cfg rng fuel mp3Data secretData = .ok out) :
    ∃ f2, parseMP3File out = .ok f2 ∧
      List.Forall₂ (fun fr fr2 =>
        fr2.headerBytes = fr.headerBytes ∧
        ∀ r, analyzeFrameData fr.header fr.data = .ok r →
          fr2.data.take (r.sideInfo.length + r.mainData.length) =
            fr.data.take (r.sideInfo.length + r.mainData.length))
        f.frames f2.frames := by
  obtain ⟨f2, _, hparse2, _, _, hforall, _, _, _⟩ :=
    embed_analysis cfg rng fuel mp3Data secretData out f hb hparse hok
  refine ⟨f2, hparse2, ?_⟩
  refine List.Forall₂.imp ?_ hforall
  intro fr fr2 hsf
  obtain ⟨hhb, hhd, hlen, hpre⟩ := hsf
  refine ⟨hhb, ?_⟩
  intro r han
  have hsl := getSafe_length fr.header fr.data r han
  have hsafe : safeLenOf fr = (getSafeModificationBytes r).length := by
    simp [safeLenOf, han]
  have hdl : fr.data.length - safeLenOf fr =
      r.sideInfo.length + r.mainData.length := by
    rw [hsafe]
    omega
  rw [← hdl]
  exact hpre

/-- Witness for C3 on the concrete embed output. -/
theorem embed_preserves_frames_witness :
    ∃ f2, parseMP3File embedTwoFramesOut = .ok f2 ∧
      List.Forall₂ (fun fr fr2 =>
        fr2.headerBytes = fr.headerBytes ∧
        ∀ r, analyzeFrameData fr.header fr.data = .ok r →
          fr2.data.take (r.sideInfo.length + r.mainData.length) =
            fr.data.take (r.sideInfo.length + r.mainData.length))
        fileTwoFrames.frames f2.frames :=
  embed_preserves_frames cfgSeqLsb2 rngZero 0 mp3TwoFrames [1, 2, 3]
    embedTwoFramesOut fileTwoFrames (by decide) rfl rfl

/-! ## Claim C1: embed/extract round trip -/

/-- **C1.** For every carrier and configuration in the spec's domains
(`lsb_bits ∈ {1,2,3,4}`, key bytes and payload bytes genuine bytes,
filename at most 255 bytes, secret at most 10 MiB, any encryption and
random-start flags — with the reseeded generator modelled by a fixed draw
stream obeying the `Intn` contract and completing its permutation), a
successful `EmbedInMP3` is inverted by `ExtractFromMP3`: it returns
exactly the secret data and the configured filename. -/
theorem embed_extract_round_trip (cfg : StegoConfig) (rng : Nat → Nat) (fuel : Nat)
    (mp3Data secretData out : List Nat) (f : MP3File)
    (hb : ∀ b ∈ mp3Data, b < 256)
    (hlsb1 : 1 ≤ cfg.lsbBits) (hlsb4 : cfg.lsbBits ≤ 4)
    (hkey : ∀ b ∈ cfg.key, b < 256)
    (hfn : cfg.secretFilename.length ≤ 255)
    (hfb : ∀ b ∈ cfg.secretFilename, b < 256)
    (hsd : secretData.length ≤ 10485760)
    (hsb : ∀ b ∈ secretData, b < 256)
    (hparse : parseMP3File mp3Data = .ok f)
    (hok : embedInMP3 cfg rng fuel mp3Data secretData = .ok out)
    (hrand : cfg.useRandomStart = true →
      (∀ i, rng i < (collectSafeBytes f.frames).length) ∧
      (buildPerm rng (collectSafeBytes f.frames).length fuel 0 []).length =
        (collectSafeBytes f.frames).length) :
    extractFromMP3 cfg rng fuel out = .ok (secretData, cfg.secretFilename) := by
  have henv := envelopeOf_lt_256 cfg secretData hfb hsb
  obtain ⟨buf, hext, htake⟩ :=
    embed_then_extract cfg rng fuel mp3Data secretData out f hb hlsb1 hlsb4 hkey henv
      hparse hok hrand
  have henveq : envelopeOf cfg secretData =
      u32be cfg.secretFilename.length ++ cfg.secretFilename ++
        u32be secretData.length ++ secretData := by
    unfold envelopeOf
    rw [Nat.mod_eq_of_lt (by omega), Nat.mod_eq_of_lt (by omega)]
  have hbufsplit : buf =
      envelopeOf cfg secretData ++ buf.drop (envelopeOf cfg secretData).length := by
    conv_lhs => rw [← List.take_append_drop (envelopeOf cfg secretData).length buf]
    rw [htake]
  rw [hext, hbufsplit, henveq]
  exact envelopeChecks_of_wellformed cfg.secretFilename secretData _ hfn hsd

/-- Witness for C1: the concrete embed output round-trips to the payload
`[1, 2, 3]` and filename `[97]`. -/
theorem embed_extract_round_trip_witness :
    extractFromMP3 cfgSeqLsb2 rngZero 0 embedTwoFramesOut = .ok ([1, 2, 3], [97]) :=
  embed_extract_round_trip cfgSeqLsb2 rngZero 0 mp3TwoFrames [1, 2, 3]
    embedTwoFramesOut fileTwoFrames (by decide) (by decide) (by decide) (by decide)
    (by decide) (by decide) (by decide) (by decide) rfl rfl
    (fun hu => absurd hu (by decide))

/-! ## Claim C10: no filename-length validation at embed time -/

theorem mp3EightFrames_lt_256 : ∀ b ∈ mp3EightFrames, b < 256 := by
  have h96 : ∀ x ∈ frameHdrBytes ++ frameDataZ, x < 256 := by decide
  intro b hb
  unfold mp3EightFrames at hb
  rw [List.mem_flatMap] at hb
  obtain ⟨i, _, hbi⟩ := hb
  exact h96 b hbi

theorem longName_lt_256 : ∀ b ∈ cfgLongName.secretFilename, b < 256 := by
  intro b hb
  have hb' : b ∈ List.replicate 256 97 := hb
  rw [List.mem_replicate] at hb'
  omega


/-- **C10.** `EmbedInMP3` never validates the filename length: with a
filename longer than 255 bytes (and below `2^32`) the embed proceeds
subject only to capacity, writes `len(filename) > 255` into the envelope,
and `ExtractFromMP3` with the same configuration (encryption off) then
fails with the invalid-filename-length error — the payload is
unrecoverable. -/
theorem long_filename_unrecoverable (cfg : StegoConfig) (rng : Nat → Nat) (fuel : Nat)
    (mp3Data secretData out : List Nat) (f : MP3File)
    (hb : ∀ b ∈ mp3Data, b < 256)
    (hlsb1 : 1 ≤ cfg.lsbBits) (hlsb4 : cfg.lsbBits ≤ 4)
    (hkey : ∀ b ∈ cfg.key, b < 256)
    (henc : cfg.useEncryption = false)
    (hfn1 : 256 ≤ cfg.secretFilename.length)
    (hfn2 : cfg.secretFilename.length < 4294967296)
    (hfb : ∀ b ∈ cfg.secretFilename, b < 256)
    (hsb : ∀ b ∈ secretData, b < 256)
    (hparse : parseMP3File mp3Data = .ok f)
    (hok : embedInMP3 cfg rng fuel mp3Data secretData = .ok out)
    (hrand : cfg.useRandomStart = true →
      (∀ i, rng i < (collectSafeBytes f.frames).length) ∧
      (buildPerm rng (collectSafeBytes f.frames).length fuel 0 []).length =
        (collectSafeBytes f.frames).length) :
    extractFromMP3 cfg rng fuel out = .error "invalid filename length" := by
  have henv := envelopeOf_lt_256 cfg secretData hfb hsb
  obtain ⟨buf, hext, htake⟩ :=
    embed_then_extract cfg rng fuel mp3Data secretData out f hb hlsb1 hlsb4 hkey henv
      hparse hok hrand
  have henveq : envelopeOf cfg secretData =
      u32be cfg.secretFilename.length ++
        (cfg.secretFilename ++ (u32be (secretData.length % 4294967296) ++ secretData)) := by
    unfold envelopeOf
    rw [Nat.mod_eq_of_lt (by omega)]
    simp [List.append_assoc]
  have hbufsplit : buf =
      envelopeOf cfg secretData ++ buf.drop (envelopeOf cfg secretData).length := by
    conv_lhs => rw [← List.take_append_drop (envelopeOf cfg secretData).length buf]
    rw [htake]
  rw [hext, hbufsplit, henveq, List.append_assoc]
  exact envelopeChecks_long _ _ (by omega) hfn2

/-- Witness for C10: embedding with a 256-byte filename into the
eight-frame carrier succeeds, and extraction rejects its own output. -/
theorem long_filename_unrecoverable_witness :
    extractFromMP3 cfgLongName rngZero 0 embedLongOut =
      .error "invalid filename length" :=
  long_filename_unrecoverable cfgLongName rngZero 0 mp3EightFrames [] embedLongOut
    fileEightFrames mp3EightFrames_lt_256 (by decide) (by decide) (by decide)
    (by decide) (by simp [cfgLongName]) (by decide) longName_lt_256 (by decide)
    rfl rfl (fun hu => absurd hu (by decide))

/-! ## Claim C7: extraction envelope sanity -/

/-- **C7.** For every MP3 that parses with a non-empty safe view (the
random-mode draw loop completing its permutation), `ExtractFromMP3` errors
exactly when the decrypted extracted buffer violates the envelope bounds —
`n > 255`, `m > 10 MiB`, or `8 + n + m > len(buf)` — and otherwise returns
the filename bytes `buf[4..4+n)` and the data bytes `buf[8+n..8+n+m)`. -/
theorem extract_envelope_sanity (cfg : StegoConfig) (rng : Nat → Nat) (fuel : Nat)
    (mp3Data : List Nat) (f : MP3File)
    (hparse : parseMP3File mp3Data = .ok f)
    (hL : 1 ≤ (collectSafeBytes f.frames).length)
    (hrand : cfg.useRandomStart = true →
      (buildPerm rng (collectSafeBytes f.frames).length fuel 0 []).length =
        (collectSafeBytes f.frames).length) :
    ((∃ e, extractFromMP3 cfg rng fuel mp3Data = .error e) ↔
      specEnvelopeViolation (extractedBuf cfg rng fuel f)) ∧
    (¬ specEnvelopeViolation (extractedBuf cfg rng fuel f) →
      extractFromMP3 cfg rng fuel mp3Data =
        .ok (specEnvelopeSlices (extractedBuf cfg rng fuel f))) := by
  have hP : 1 ≤ (generatePositions cfg rng fuel (collectSafeBytes f.frames).length
      (collectSafeBytes f.frames).length).length := by
    rw [generatePositions_full_length cfg rng fuel _ hrand]
    exact hL
  have hunfold := extractFromMP3_unfold cfg rng fuel mp3Data f hparse hL hP
  by_cases hraw : (extractedRawOf cfg rng fuel f).length < 8
  · rw [if_pos hraw] at hunfold
    have hblen : (extractedBuf cfg rng fuel f).length < 8 := by
      rw [extractedBuf_length]
      exact hraw
    have hviol : specEnvelopeViolation (extractedBuf cfg rng fuel f) := by
      right
      right
      unfold specEnvelopeViolation at *
      omega
    refine ⟨⟨fun _ => hviol, fun _ => ⟨_, hunfold⟩⟩, fun hnv => absurd hviol hnv⟩
  · rw [if_neg hraw] at hunfold
    obtain ⟨hiff, hok⟩ := envelopeChecks_spec (extractedBuf cfg rng fuel f)
    rw [hunfold]
    exact ⟨hiff, hok⟩

/-- Witness for C7 on the raw two-frame carrier: an all-zero extracted
buffer violates nothing and yields the empty filename and data. -/
theorem extract_envelope_sanity_witness :
    ¬ specEnvelopeViolation (extractedBuf cfgSeqLsb1 rngZero 0 fileTwoFrames) ∧
    extractFromMP3 cfgSeqLsb1 rngZero 0 mp3TwoFrames = .ok ([], []) := by
  have hnv : ¬ specEnvelopeViolation (extractedBuf cfgSeqLsb1 rngZero 0 fileTwoFrames) := by
    unfold specEnvelopeViolation
    decide
  refine ⟨hnv, ?_⟩
  have h := (extract_envelope_sanity cfgSeqLsb1 rngZero 0 mp3TwoFrames fileTwoFrames
    rfl (by decide) (fun hu => absurd hu (by decide))).2 hnv
  rw [h]
  rfl
end AudioStego
